import Mathlib

/-!
Verification of the docstrfmt reStructuredText formatter (`docstrfmt/docstrfmt.py`).

This file gives a shallow embedding of the parts of the formatting engine that
the checked properties are about: the inline merge / escape engine and the
greedy text wrapper (`_wrap_text`), the `FormatContext` value and the in-place
context updates performed by some formatters, the section-title renderer, the
table column-width allocator (`Formatters.table` together with
`_divide_evenly`), the anonymous-target run sorting of `Manager._pre_process`,
and the field-list classification / type-merging pass of
`Formatters.field_list` together with a line-level renderer for a fragment of
the node language.

Rendered text is modelled as `List Char` so that splitting and joining can be
reasoned about directly; machine strings built by the python code keep their
`String` type where no character-level reasoning is needed.
-/

abbrev Str := List Char

/-- Characters of python `string.whitespace`, used by `space_chars` in the source
(docstrfmt.py line 61). -/
def spaceChars : List Char := [' ', '\t', '\n', '\r', '\x0b', '\x0c']

/-- The non-whitespace part of `pre_markup_break_chars` (docstrfmt.py line 62):
the characters of the python string literal written there. -/
def preMarkupExtra : List Char := ['-', ':', '/', '\'', '"', '<', '(', '[', '\x7b']

/-- Embedding of `pre_markup_break_chars = space_chars | set("-:/'\"<([{")`. -/
def preMarkupBreakChars : List Char := spaceChars ++ preMarkupExtra

/-- The non-whitespace part of `post_markup_break_chars` (docstrfmt.py line 63). -/
def postMarkupExtra : List Char :=
  ['-', '.', ',', ':', ';', '!', '?', '\\', '/', '\'', '"', ')', ']', '\x7d', '>']

/-- Embedding of `post_markup_break_chars = space_chars | set("-.,:;!?\\/'\")]}>")`. -/
def postMarkupBreakChars : List Char := spaceChars ++ postMarkupExtra

/-- Worker for `pySplit`, accumulating the current word reversed. -/
def pySplitGo : Str → Str → List Str
  | cur, [] => if cur = [] then [] else [cur.reverse]
  | cur, c :: rest =>
    if c ∈ spaceChars then
      if cur = [] then pySplitGo [] rest else cur.reverse :: pySplitGo [] rest
    else pySplitGo (c :: cur) rest

/-- Python `str.split()` with no argument: split on runs of whitespace,
producing no empty words. -/
def pySplit (s : Str) : List Str := pySplitGo [] s

/-- Embedding of the `word_info` namedtuple (docstrfmt.py lines 139-142). -/
structure WordInfo where
  text : Str
  inMarkup : Bool
  startSpace : Bool
  endSpace : Bool
  startPunct : Bool
  endPunct : Bool
deriving DecidableEq, Repr

/-- An inline item handed to `_wrap_text`: either a plain string or an
`inline_markup` block (docstrfmt.py lines 123-135). -/
inductive InlineItem where
  | str (s : Str)
  | markup (s : Str)
deriving DecidableEq, Repr

/-- Replace the first element of a list by `f` of it, as the python
`new_words[0] = new_words[0]._replace(...)` does. -/
def updateFirst (f : WordInfo → WordInfo) : List WordInfo → List WordInfo
  | [] => []
  | w :: ws => f w :: ws

/-- Replace the last element of a list by `f` of it, as the python
`new_words[-1] = new_words[-1]._replace(...)` does. -/
def updateLast (f : WordInfo → WordInfo) : List WordInfo → List WordInfo
  | [] => []
  | [w] => [f w]
  | w :: ws => w :: updateLast f ws

/-- Embedding of the per-item word construction of `_wrap_text`
(docstrfmt.py lines 2317-2348): a plain item is split into words and its
first/last words receive the space/punctuation boundary flags from the item's
first/last character; a markup item is split into words all flagged
`in_markup`; an empty plain item becomes a single empty word with trailing
punctuation. -/
def itemWords : InlineItem → List WordInfo
  | .str s =>
    match s with
    | [] => [⟨[], false, false, false, false, true⟩]
    | c :: rest =>
      let ws := (pySplit (c :: rest)).map
        (fun w => (⟨w, false, false, false, false, false⟩ : WordInfo))
      let ws := if ws = [] then [(⟨[], false, true, true, true, true⟩ : WordInfo)] else ws
      let last := (c :: rest).getLastD ' '
      let ws := if c ∈ spaceChars then updateFirst (fun w => { w with startSpace := true }) ws else ws
      let ws := if last ∈ spaceChars then updateLast (fun w => { w with endSpace := true }) ws else ws
      let ws :=
        if c ∈ postMarkupBreakChars then updateFirst (fun w => { w with startPunct := true }) ws
        else ws
      let ws :=
        if last ∈ preMarkupBreakChars then updateLast (fun w => { w with endPunct := true }) ws
        else ws
      ws
  | .markup s => (pySplit s).map (fun w => (⟨w, true, false, false, false, false⟩ : WordInfo))

/-- The initial sentinel word `word_info("", False, True, True, True, True)`
(docstrfmt.py line 2350). -/
def sentinelWord : WordInfo := ⟨[], false, true, true, true, true⟩

/-- The literal two-character escape `\ ` inserted between adjacent plain and
markup words. -/
def escSpace : Str := ['\\', ' ']

/-- One step of the merge loop of `_wrap_text` (docstrfmt.py lines 2351-2369):
a plain word directly followed by a markup word (no trailing space) merges
with a `\ ` escape unless it ends in break punctuation, and symmetrically. -/
def mergeStep (ws : List WordInfo) (w : WordInfo) : List WordInfo :=
  match ws.getLast? with
  | none => ws ++ [w]
  | some last =>
    if !last.inMarkup && w.inMarkup && !last.endSpace then
      ws.dropLast ++
        [⟨last.text ++ (if last.endPunct then [] else escSpace) ++ w.text,
          true, false, false, false, false⟩]
    else if last.inMarkup && !w.inMarkup && !w.startSpace then
      ws.dropLast ++
        [⟨last.text ++ (if w.startPunct then [] else escSpace) ++ w.text,
          false, false, w.endSpace, w.startPunct, w.endPunct⟩]
    else ws ++ [w]

/-- The merge loop of `_wrap_text`, starting from the sentinel word. -/
def mergeWords (raw : List WordInfo) : List WordInfo :=
  raw.foldl mergeStep [sentinelWord]

/-- The full inline merge of `_wrap_text` up to `word_strings`
(docstrfmt.py lines 2316-2371): item words, the merge loop, then the texts of
the non-empty words. -/
def mergedWordTexts (items : List InlineItem) : List Str :=
  ((mergeWords ((items.map itemWords).flatten)).filter (fun w => w.text ≠ [])).map WordInfo.text

/-- Python `" " * n`. -/
def spacesStr (n : Nat) : Str := List.replicate n ' '

/-- Python `" ".join(words)` on character lists. -/
def joinWithSpace : List Str → Str
  | [] => []
  | [w] => w
  | w :: ws => w ++ ' ' :: joinWithSpace ws

/-- The greedy fill loop of `_wrap_text` (docstrfmt.py lines 2377-2398).
Arguments: the subsequent indent, the current width budget (already reduced by
`first_line_len` when that is non-zero), the pending `first_line_len` to
restore at the first flush, the words of the current line, the running
`current_line_length`, and the remaining words. -/
def wrapLoop (si : Nat) : Int → Int → List Str → Nat → List Str → List Str
  | _, _, cur, _, [] => if cur = [] then [] else [joinWithSpace cur]
  | width, fll, cur, curLen, w :: rest =>
    let nextLen : Nat :=
      curLen + (if cur ≠ [] then si else 0) + (if cur ≠ [] then 1 else 0) + w.length
    if cur ≠ [] ∧ (nextLen : Int) > width then
      (spacesStr si ++ joinWithSpace cur) ::
        wrapLoop si (if fll ≠ 0 then width + fll else width) (if fll ≠ 0 then 0 else fll)
          [w] w.length rest
    else wrapLoop si width fll (cur ++ [w]) nextLen rest

/-- The error raised by `_wrap_text` when the width is not `None` and `≤ 0`
(docstrfmt.py lines 2313-2315). -/
inductive WrapError where
  | invalidStartingWidth
deriving DecidableEq, Repr

/-- The greedy fill of `_wrap_text` on an already-merged word sequence: the
width is reduced by `first_line_len` when that is non-zero (`width -=
context.first_line_len`) and the loop starts with an empty current line. -/
def greedyWrap (width : Int) (si : Nat) (fll : Int) (words : List Str) : List Str :=
  wrapLoop si (if fll ≠ 0 then width - fll else width) fll [] 0 words

/-- Embedding of `_wrap_text` (docstrfmt.py lines 2298-2398): merge the inline
items into words, then either join them on one line (width `None`) or fill
greedily. `si` is `context.subsequent_indent`, `fll` is
`context.first_line_len`. -/
def wrapText (width : Option Int) (items : List InlineItem) (si : Nat) (fll : Int) :
    Except WrapError (List Str) :=
  match width with
  | none => .ok [joinWithSpace (mergedWordTexts items)]
  | some w =>
    if w ≤ 0 then .error .invalidStartingWidth
    else .ok (greedyWrap w si fll (mergedWordTexts items))

/-- Embedding of the value fields of `FormatContext` (docstrfmt.py lines
145-181). The `manager` and `black_config` fields, which hold references to
collaborator objects, are omitted. `width` is `Option Int` because
`with_width(None)` stores `None` there. -/
structure FormatContext where
  width : Option Int
  currentFile : String
  startingWidth : Option Int
  bullet : String
  columnWidths : List Int
  currentOrdinal : Int
  firstLineLen : Int
  lineBlockDepth : Nat
  ordinalFormat : String
  sectionDepth : Nat
  subsequentIndent : Nat
  useAdornments : Option Bool
  isDocstring : Bool
deriving DecidableEq, Repr

/-- Embedding of `FormatContext.indent` (docstrfmt.py lines 212-220):
`_replace(width=max(1, self.width - spaces))`. The python code would raise a
`TypeError` on a `None` width; `indent` is never called on such a context, and
the embedding leaves a `None` width unchanged. -/
def FormatContext.indent (ctx : FormatContext) (spaces : Int) : FormatContext :=
  { ctx with width := ctx.width.map (fun w => max 1 (w - spaces)) }

/-- Error raised by `make_enumerator` (util.py, `ParserError`). -/
inductive EnumError where
  | parserError (msg : String)
deriving DecidableEq, Repr

/-- Value/numeral table used for roman numeral conversion. -/
def romanPairs : List (Nat × String) :=
  [(1000, "M"), (900, "CM"), (500, "D"), (400, "CD"), (100, "C"), (90, "XC"),
   (50, "L"), (40, "XL"), (10, "X"), (9, "IX"), (5, "V"), (4, "IV"), (1, "I")]

/-- Greedy roman numeral construction over `romanPairs`. -/
def toRomanAux : List (Nat × String) → Nat → String
  | [], _ => ""
  | (v, s) :: rest, n => String.join (List.replicate (n / v) s) ++ toRomanAux rest (n % v)

/-- Embedding of `roman.toRoman` as used by `make_enumerator`: valid for
`1 ≤ n ≤ 4999`, an error otherwise. -/
def toRoman (n : Nat) : Except EnumError String :=
  if n = 0 ∨ n > 4999 then .error (.parserError "invalid roman numeric enumerator")
  else .ok (toRomanAux romanPairs n)

/-- Embedding of `make_enumerator` (util.py lines 19-55), with the format
tuple split into its two components. -/
def makeEnumerator (ordinal : Int) (sequence : String) (fmtPre fmtPost : String) :
    Except EnumError String := do
  let enumerator ←
    if sequence = "#" then pure "#"
    else if sequence = "arabic" then pure (toString ordinal)
    else do
      let base ←
        if sequence.endsWith "alpha" then
          if ordinal > 26 then
            throw (.parserError "alphabetic enumerators support only up to 26 items")
          else pure (String.singleton (Char.ofNat (ordinal.toNat + 96)))
        else if sequence.endsWith "roman" then toRoman ordinal.toNat
        else throw (.parserError "unknown enumerator sequence")
      if sequence.startsWith "lower" then pure base.toLower
      else if sequence.startsWith "upper" then pure base.toUpper
      else throw (.parserError "unknown enumerator sequence")
  pure (fmtPre ++ enumerator ++ fmtPost)

/-- The in-place mutation that `Formatters.list_item` performs on the context
object it was called with, before it rebinds `context` to a fresh copy
(docstrfmt.py lines 1579-1583): when `current_ordinal` is non-zero and the
bullet is not one of `-`, `*`, `+`, the caller's context object gets
`bullet = make_enumerator(...)` and `current_ordinal += 1` assigned in place.
The returned context is the state of the caller-shared object after the call;
the later `context = context.indent(width)` and `context.bullet = ""` act on a
fresh copy and do not touch it. -/
def listItemSharedUpdate (ctx : FormatContext) : Except EnumError FormatContext :=
  if ctx.currentOrdinal ≠ 0 ∧ ctx.bullet ∉ (["-", "*", "+"] : List String) then do
    let b ← makeEnumerator ctx.currentOrdinal ctx.ordinalFormat "" "."
    pure { ctx with bullet := b, currentOrdinal := ctx.currentOrdinal + 1 }
  else pure ctx

/-- The in-place mutation that `Formatters.paragraph` performs on the context
object it was called with (docstrfmt.py lines 1673-1677): when
`context.is_docstring` holds, `context.is_docstring = False` is assigned in
place on the caller-shared object. -/
def paragraphSharedUpdate (ctx : FormatContext) : FormatContext :=
  if ctx.isDocstring then { ctx with isDocstring := false } else ctx

/-- The in-place mutation that `Formatters.enumerated_list` performs on the
context object it was called with after yielding its items
(docstrfmt.py line 1154): `context.current_ordinal = 0`. -/
def enumeratedListSharedUpdate (ctx : FormatContext) : FormatContext :=
  { ctx with currentOrdinal := 0 }

/-- Embedding of the emission step of `Formatters.title`
(docstrfmt.py lines 2205-2213), as a function of the already-joined title
text, the resolved adornment character and the resolved overline flag:
with an overline the heading is centered between two adornment lines of
length `len(text) + 2`, otherwise the text is followed by an underline of
length `len(text)`. -/
def titleLines (text : Str) (char : Char) (overline : Bool) : List Str :=
  if overline then
    [List.replicate (2 + text.length) char, ' ' :: text,
     List.replicate (2 + text.length) char]
  else [text, List.replicate text.length char]

/-- Embedding of `_divide_evenly` (docstrfmt.py lines 2272-2284): `count`
copies of `floor(width / count)`, with the remainder `width % count`
apportioned one unit each to the last entries. Python floor division and
modulus on ints are `Int.fdiv` and `Int.emod`. -/
def divideEvenly (width : Int) (count : Nat) : List Int :=
  (List.range count).map (fun j =>
    Int.fdiv width count + if count - 1 - j < (Int.emod width count).toNat then 1 else 0)

/-- Insert `x` into `l` before the first element `y` with `le x y`; the
insertion step of a stable insertion sort. -/
def insertLe {α : Type} (le : α → α → Bool) (x : α) : List α → List α
  | [] => [x]
  | y :: ys => if le x y then x :: y :: ys else y :: insertLe le x ys

/-- Stable insertion sort with respect to the boolean relation `le`; used to
model python's stable `sorted`. -/
def stableSortLe {α : Type} (le : α → α → Bool) : List α → List α
  | [] => []
  | x :: xs => insertLe le x (stableSortLe le xs)

/-- The column-compression loop of `Formatters.table` (docstrfmt.py lines
2024-2046), taken when the natural column widths do not all fit. Arguments
after the fixed `totalWidth`, `minColLen` and `colCount`: the still-unprocessed
`(column_index, column_width)` pairs in sorted order, the running
`current_width`, the `column_lengths` mapping built so far (as an association
list in insertion order), and the enumeration counter `column_progress`. -/
def allocateLoop (totalWidth : Int) (minColLen : List Nat) (colCount : Nat) :
    List (Nat × Nat) → Int → List (Nat × Int) → Nat → List (Nat × Int)
  | [], _, acc, _ => acc
  | (idx, w) :: rest, cur, acc, progress =>
    if (List.lookup idx acc).isNone then
      if cur + (w : Int) ≤ totalWidth then
        allocateLoop totalWidth minColLen colCount rest (cur + (w : Int))
          (acc ++ [(idx, (w : Int))]) (progress + 1)
      else
        let proposed := (divideEvenly (totalWidth - cur) (colCount - progress)).getLastD 0
        let grant : Int :=
          if (w : Int) < proposed ∨ (w : Int) < 25 then (w : Int)
          else if proposed ≥ ((minColLen.getD idx 0 : Nat) : Int) then
            (if proposed < 25 then 25 else proposed)
          else (w : Int)
        allocateLoop totalWidth minColLen colCount rest cur (acc ++ [(idx, grant)])
          (progress + 1)
    else allocateLoop totalWidth minColLen colCount rest cur acc (progress + 1)

/-- The granted column widths computed by the compression branch of
`Formatters.table`: the per-column maximum natural widths are enumerated,
stably sorted ascending by width (`sorted(max_col_len.items(), key=...)`), and
fed through `allocateLoop` with empty initial state. -/
def tableColumnLengths (totalWidth : Int) (maxColLen minColLen : List Nat) :
    List (Nat × Int) :=
  allocateLoop totalWidth minColLen maxColLen.length
    (stableSortLe (fun a b => decide (a.2 ≤ b.2)) maxColLen.enum) 0 [] 0

/-- Stated from the specification text: the even share of a remaining budget
over the remaining columns, where the even division apportions its remainder
to the last columns of the remaining set — so the share of the last column is
the floor plus one when any remainder is left. -/
def evenShareSpec (budget : Int) (count : Nat) : Int :=
  Int.fdiv budget count + if Int.emod budget count = 0 then 0 else 1

/-- Stated from the specification text: process columns in ascending order of
maximum natural width; a column that still fits in full within the remaining
budget is granted in full and consumes budget; otherwise grant the natural
width unchanged if it is below the even share of the remaining budget over the
remaining columns or below 25, else `max(25, even_share)` if the even share is
at least the column's minimum width, else the natural width. -/
def allocateSpec (minColLen : List Nat) : List (Nat × Nat) → Int → Nat → List (Nat × Int)
  | [], _, _ => []
  | (idx, w) :: rest, budget, remaining =>
    if (w : Int) ≤ budget then
      (idx, (w : Int)) :: allocateSpec minColLen rest (budget - (w : Int)) (remaining - 1)
    else
      let share := evenShareSpec budget remaining
      let grant : Int :=
        if (w : Int) < share ∨ (w : Int) < 25 then (w : Int)
        else if share ≥ ((minColLen.getD idx 0 : Nat) : Int) then max 25 share
        else (w : Int)
      (idx, grant) :: allocateSpec minColLen rest budget (remaining - 1)

/-- The specification-side description of the whole compression pass, to be
compared with `tableColumnLengths`. -/
def tableColumnLengthsSpec (totalWidth : Int) (maxColLen minColLen : List Nat) :
    List (Nat × Int) :=
  allocateSpec minColLen (stableSortLe (fun a b => decide (a.2 ≤ b.2)) maxColLen.enum)
    totalWidth maxColLen.length

/-- Lexicographic strict order on lists induced by a boolean strict order on
elements, as python compares lists. -/
def lexLtBy {α : Type} (lt : α → α → Bool) : List α → List α → Bool
  | [], [] => false
  | [], _ :: _ => true
  | _ :: _, [] => false
  | a :: as, b :: bs => if lt a b then true else if lt b a then false else lexLtBy lt as bs

/-- Strict order on characters by code point, as python compares characters
inside strings. -/
def charLtB (a b : Char) : Bool := decide (a < b)

/-- Python's `<` on strings: lexicographic by character. -/
def strLtB : Str → Str → Bool := lexLtBy charLtB

/-- Python's `<` on lists of strings, the comparison applied to the `names`
attribute of targets. -/
def namesLtB : List Str → List Str → Bool := lexLtBy strLtB

/-- A node as seen by the target-run sorting of `Manager._pre_process`: either
a `target` node carrying its `names` attribute, or any other node. The `id`
field tags distinct nodes so that stability is observable. -/
inductive TNode where
  | target (id : Nat) (names : List Str)
  | other (id : Nat)
deriving DecidableEq, Repr

/-- Whether a node is a `target` node (`isinstance(child, nodes.target)`). -/
def isTargetNode : TNode → Bool
  | .target _ _ => true
  | .other _ => false

/-- The sort key `t.attributes["names"]` used on a run of targets. -/
def tgtNames : TNode → List Str
  | .target _ ns => ns
  | .other _ => []

/-- The non-strict comparison corresponding to python's key sort: `a` may come
before `b` unless `b`'s key is strictly smaller. -/
def tgtLe (a b : TNode) : Bool := !(namesLtB (tgtNames b) (tgtNames a))

/-- Python's stable `sorted(..., key=lambda t: t.attributes["names"])` on a
run of target nodes (docstrfmt.py lines 474-477), modelled as a stable
insertion sort. -/
def sortTargets : List TNode → List TNode := stableSortLe tgtLe

/-- The run-tracking scan of `Manager._pre_process` (docstrfmt.py lines
467-481): walk the children with a trailing sentinel, accumulate a contiguous
run of target nodes, and when the run ends sort it in place. -/
def sortTargetRunsGo : List TNode → List TNode → List TNode
  | run, [] => sortTargets run
  | run, x :: xs =>
    if isTargetNode x then sortTargetRunsGo (run ++ [x]) xs
    else sortTargets run ++ x :: sortTargetRunsGo [] xs

/-- The target-run sorting pass applied to one children sequence. -/
def sortTargetRuns (children : List TNode) : List TNode := sortTargetRunsGo [] children

/-- Python `str.split(sep)` for a one-character separator: split at every
occurrence, keeping empty pieces. -/
def splitOnCharList (sep : Char) : Str → List Str
  | [] => [[]]
  | c :: rest =>
    if c = sep then [] :: splitOnCharList sep rest
    else
      match splitOnCharList sep rest with
      | [] => [[c]]
      | s :: ss => (c :: s) :: ss

/-- Python `str.split(" ")`, used on field name texts. -/
def splitOnSpace : Str → List Str := splitOnCharList ' '

/-- Python `str.splitlines()` for newline-separated text: like splitting on
`\n` but with no empty piece after a final newline and `[]` for the empty
string. -/
def splitLines (s : Str) : List Str :=
  if s = [] then []
  else
    let ps := splitOnCharList '\n' s
    if ps.getLast? = some [] then ps.dropLast else ps

/-- Generic `sep.join(...)` on character lists. -/
def joinWithStr (sep : Str) : List Str → Str
  | [] => []
  | [x] => x
  | x :: xs => x ++ sep ++ joinWithStr sep xs

/-- Python `"\n".join(...)`. -/
def joinWithNl : List Str → Str := joinWithStr ['\n']

/-- Python `str.strip()`: drop whitespace from both ends. -/
def pyStrip (s : Str) : Str :=
  (((s.dropWhile (· ∈ spaceChars)).reverse.dropWhile (· ∈ spaceChars))).reverse

/-- The text-node transformation of `Formatters.text` (docstrfmt.py line
2136): delete every occurrence of the two-character escape `\ `. The
preceding `unescape(..., restore_backslashes=True)` undoes the parser's
internal null-escaping and is the identity on the plain text modelled here. -/
def removeEscSpace : Str → Str
  | [] => []
  | '\\' :: ' ' :: rest => removeEscSpace rest
  | c :: rest => c :: removeEscSpace rest

/-- Embedding of `_with_spaces` (docstrfmt.py lines 675-686): prefix each
non-empty line with the given number of spaces. -/
def withSpaces (n : Nat) (lines : List Str) : List Str :=
  lines.map (fun l => if l = [] then l else spacesStr n ++ l)

/-- Embedding of `_chain_with_line_separator` (docstrfmt.py lines 2252-2269)
specialised to line groups: one separator line between successive groups,
whether or not the groups are empty. -/
def chainWithSep (sep : Str) : List (List Str) → List Str
  | [] => []
  | [g] => g
  | g :: gs => g ++ sep :: chainWithSep sep gs

/-- The fragment of the document-tree node language needed for the field-list
and trailing-newline properties: plain text, paragraphs, comments and the
field-list family, plus the document root. Children are in source order as in
docutils. -/
inductive Node where
  | text (s : Str)
  | paragraph (children : List Node)
  | comment (children : List Node)
  | field_name (children : List Node)
  | field_body (children : List Node)
  | field (children : List Node)
  | field_list (children : List Node)
  | document (children : List Node)

/-- The children list of a node. -/
def nodeChildren : Node → List Node
  | .text _ => []
  | .paragraph cs => cs
  | .comment cs => cs
  | .field_name cs => cs
  | .field_body cs => cs
  | .field cs => cs
  | .field_list cs => cs
  | .document cs => cs

mutual

/-- Docutils `Node.astext()`: text nodes give their text; `TextElement`
subclasses (paragraph, comment, field name) join children with `""`; other
elements join children with `"\n\n"`. -/
def astext : Node → Str
  | .text s => s
  | .paragraph cs => joinWithStr [] (astextList cs)
  | .comment cs => joinWithStr [] (astextList cs)
  | .field_name cs => joinWithStr [] (astextList cs)
  | .field_body cs => joinWithStr ['\n', '\n'] (astextList cs)
  | .field cs => joinWithStr ['\n', '\n'] (astextList cs)
  | .field_list cs => joinWithStr ['\n', '\n'] (astextList cs)
  | .document cs => joinWithStr ['\n', '\n'] (astextList cs)

/-- The `astext` values of a list of nodes. -/
def astextList : List Node → List Str
  | [] => []
  | c :: cs => astext c :: astextList cs

end

/-- The name text of a field node, `child.children[0].children[0].astext()`
in `Formatters.field_list`; defaults stand in for the index errors python
would raise on malformed trees. -/
def fieldNameText (f : Node) : Str :=
  astext ((nodeChildren ((nodeChildren f).headD (Node.text []))).headD (Node.text []))

/-- The first body text of a field node,
`child.children[1].children[0].astext()` in `Formatters.field_list`. -/
def fieldBodyFirstText (f : Node) : Str :=
  astext ((nodeChildren ((nodeChildren f).getD 1 (Node.text []))).headD (Node.text []))

/-- Errors surfaced by the embedded renderer: the `_wrap_text` width error,
`InvalidRstError`s (modelled by their message), and exhaustion of the
recursion fuel. -/
inductive RenderError where
  | invalidWidth
  | rst (msg : Str)
  | fuel
deriving DecidableEq, Repr

/-- The field-name canonicalization table of `Formatters.field_list`
(docstrfmt.py lines 1273-1289). -/
def fieldNameMapping : List (Str × Str) :=
  [("arg", "param"), ("argument", "param"), ("key", "param"), ("keyword", "param"),
   ("param", "param"), ("parameter", "param"), ("return", "returns"),
   ("returns", "returns"), ("except", "raises"), ("exception", "raises"),
   ("raise", "raises"), ("raises", "raises"), ("cvar", "var"), ("ivar", "var"),
   ("var", "var")].map (fun p => (p.1.toList, p.2.toList))

/-- Python dictionary assignment `d[k] = v`: overwrite in place or append. -/
def dictUpdate {α β : Type} [BEq α] (k : α) (v : β) : List (α × β) → List (α × β)
  | [] => [(k, v)]
  | (k', v') :: rest => if k' == k then (k, v) :: rest else (k', v') :: dictUpdate k v rest

/-- The destructuring `field_kind, *field_typing, field_name = field_body.split(" ")`
with its `ValueError` fallback (docstrfmt.py lines 1296-1300): kind, middle
typing words, and the trailing name when the split has at least two parts. -/
def splitFieldNameText (nameText : Str) : Str × List Str × Option Str :=
  let parts := splitOnSpace nameText
  if parts.length ≥ 2 then (parts.headD [], (parts.drop 1).dropLast, some (parts.getLastD []))
  else (parts.headD [], [], none)

/-- Replace the field-name child of a field node by a fresh `field_name` node
holding the given text, as `field_name_node.replace_self(...)` and
`field.children[0].replace_self(...)` do. -/
def replaceFieldNameChild (f : Node) (newText : Str) : Node :=
  match f with
  | .field cs => .field (.field_name [.text newText] :: cs.drop 1)
  | n => n

/-- The raw `field_kind` of a field node, the first word of its name text. -/
def fieldKind0 (f : Node) : Str := (splitFieldNameText (fieldNameText f)).1

/-- The `field_typing` words of a field node. -/
def fieldTyping (f : Node) : List Str := (splitFieldNameText (fieldNameText f)).2.1

/-- The trailing `field_name` word of a field node, when present. -/
def fieldSplitName (f : Node) : Option Str := (splitFieldNameText (fieldNameText f)).2.2

/-- The canonicalized field kind of a field node,
`field_name_mapping.get(field_kind, field_kind)`. -/
def fieldKindOf (f : Node) : Str :=
  (List.lookup (fieldKind0 f) fieldNameMapping).getD (fieldKind0 f)

/-- The words appended after the canonical kind when rebuilding a
canonicalized field name: the typing words and, when the split name is a
non-empty string (python truthiness of `field_name`), the name. -/
def canonTail (f : Node) : List Str :=
  fieldTyping f ++
    (match fieldSplitName f with
      | some n => if n ≠ [] then [n] else []
      | none => [])

/-- The replacement name text built for a canonicalized field:
`" ".join([new_field_kind, *field_typing] + ([field_name] if field_name else []))`. -/
def canonNewNameText (f : Node) : Str :=
  joinWithSpace ([fieldKindOf f] ++ canonTail f)

/-- The field node as stored in a bucket: when the kind was canonicalized the
field-name child has been replaced by a fresh node with the new name text. -/
def classifiedNode (f : Node) : Node :=
  if fieldKindOf f ≠ fieldKind0 f then replaceFieldNameChild f (canonNewNameText f) else f

/-- The value a later `field.children[0].get("name")` returns for a stored
field: the split name set by `setdefault`, except that a canonicalized field
had its field-name node replaced after `setdefault` ran on the old node, so
the attribute is absent and `get` yields `None`. -/
def classifiedGot (f : Node) : Option Str :=
  if fieldKindOf f ≠ fieldKind0 f then none else fieldSplitName f

/-- The accumulator of the classification pass of `Formatters.field_list`:
the six buckets (each field paired with the value a later
`field.children[0].get("name")` returns), the `param_types`/`var_types`
dictionaries, and the `already_typed` list. -/
structure FieldState where
  paramFields : List (Node × Option Str)
  varFields : List (Node × Option Str)
  returnsFields : List (Node × Option Str)
  rtypeFields : List (Node × Option Str)
  raisesFields : List (Node × Option Str)
  otherFields : List (Node × Option Str)
  paramTypes : List (Option Str × Str)
  varTypes : List (Option Str × Str)
  alreadyTyped : List (Option Str)

/-- The empty initial `FieldState`. -/
def emptyFieldState : FieldState := ⟨[], [], [], [], [], [], [], [], []⟩

/-- The classification loop of `Formatters.field_list` (docstrfmt.py lines
1291-1337): canonicalize the field kind, record the split name, consume
`type`/`vartype` fields into the type dictionaries (rejecting multi-line type
values), track inline-typed names, and place the remaining fields into
buckets, rejecting a second `returns` field. A canonicalized field has its
field-name node replaced, so the `name` attribute set by `setdefault` on the
old node is absent from it and `get("name")` yields `None` for it. -/
def classifyFields : List Node → FieldState → Except RenderError FieldState
  | [], st => .ok st
  | f :: rest, st =>
    let kind := fieldKindOf f
    if kind = "type".toList ∨ kind = "vartype".toList then
      let fieldType := fieldBodyFirstText f
      if '\n' ∈ fieldType then
        .error (.rst "Multi-line type hints are not supported.".toList)
      else
        let st :=
          if kind = "type".toList then
            { st with paramTypes := dictUpdate (fieldSplitName f) fieldType st.paramTypes }
          else { st with varTypes := dictUpdate (fieldSplitName f) fieldType st.varTypes }
        classifyFields rest st
    else
      let st :=
        if fieldTyping f ≠ [] then
          { st with alreadyTyped := st.alreadyTyped ++ [fieldSplitName f] }
        else st
      if kind = "param".toList then
        classifyFields rest
          { st with paramFields := st.paramFields ++ [(classifiedNode f, classifiedGot f)] }
      else if kind = "var".toList then
        classifyFields rest
          { st with varFields := st.varFields ++ [(classifiedNode f, classifiedGot f)] }
      else if kind = "returns".toList then
        if !st.returnsFields.isEmpty then
          .error (.rst
            "Multiple `:return:` fields are not allowed. Please combine them into one.".toList)
        else
          classifyFields rest
            { st with returnsFields := st.returnsFields ++ [(classifiedNode f, classifiedGot f)] }
      else if kind = "rtype".toList then
        classifyFields rest
          { st with rtypeFields := st.rtypeFields ++ [(classifiedNode f, classifiedGot f)] }
      else if kind = "raises".toList then
        classifyFields rest
          { st with raisesFields := st.raisesFields ++ [(classifiedNode f, classifiedGot f)] }
      else
        classifyFields rest
          { st with otherFields := st.otherFields ++ [(classifiedNode f, classifiedGot f)] }

/-- Python `str(x)` for an optional string, as an f-string renders it:
`None` prints as `None`. -/
def pyOptStr : Option Str → Str
  | none => "None".toList
  | some s => s

/-- The type-merging loop of `Formatters.field_list` (docstrfmt.py lines
1338-1359) over one bucket: raise when a field both carries inline typing and
has an entry in the type dictionary, otherwise splice a non-empty dictionary
entry into the field name as `"<kind> <type> <name>"`. -/
def mergeTypeFields (types : List (Option Str × Str)) (alreadyTyped : List (Option Str))
    (typeFieldName fieldKind : Str) :
    List (Node × Option Str) → Except RenderError (List (Node × Option Str))
  | [] => .ok []
  | (f, got) :: rest =>
    if alreadyTyped.contains got ∧ (List.lookup got types).isSome then
      .error (.rst ("Type hint is specified both in the field body and in the `:".toList
        ++ typeFieldName ++ ":` field. Please remove one of them.".toList))
    else
      let f1 :=
        match List.lookup got types with
        | some v =>
          if v ≠ [] then
            replaceFieldNameChild f (fieldKind ++ [' '] ++ v ++ [' '] ++ pyOptStr got)
          else f
        | none => f
      do
        let rest1 ← mergeTypeFields types alreadyTyped typeFieldName fieldKind rest
        .ok ((f1, got) :: rest1)

/-- The transformed buckets produced by `Formatters.field_list` before any
rendering. -/
structure FieldListOut where
  paramFields : List (Node × Option Str)
  varFields : List (Node × Option Str)
  returnsFields : List (Node × Option Str)
  rtypeFields : List (Node × Option Str)
  raisesFields : List (Node × Option Str)
  otherFields : List (Node × Option Str)

/-- The whole node-rewriting part of `Formatters.field_list`: classification
followed by the two type-merging passes (`param` with `:type:`, then `var`
with `:vartype:`). -/
def processFieldList (fields : List Node) : Except RenderError FieldListOut := do
  let st ← classifyFields fields emptyFieldState
  let param ← mergeTypeFields st.paramTypes st.alreadyTyped "type".toList "param".toList st.paramFields
  let var ← mergeTypeFields st.varTypes st.alreadyTyped "vartype".toList "var".toList st.varFields
  .ok ⟨param, var, st.returnsFields, st.rtypeFields, st.raisesFields, st.otherFields⟩

/-- Embedding of `Formatters.field_name` (docstrfmt.py lines 1396-1426): the
joined child text wrapped in colons; the prefix loop splits off a leading
`param`/`raise`/`return` word and re-appends it unchanged. -/
def fieldNameBody (text : Str) : Str :=
  match ["param".toList, "raise".toList, "return".toList].find?
      (fun fk => fk.isPrefixOf text) with
  | some _ =>
    let fk := text.takeWhile (fun c => c ≠ ' ')
    [':'] ++ fk ++ text.drop fk.length ++ [':']
  | none => [':'] ++ text ++ [':']

/-- The block-regrouping loop of `Formatters.field` (docstrfmt.py lines
1197-1213), which scans the remaining body lines, and for each line starting
with `..` collects its indented/blank continuation block, deletes the scanned
copies from the list it is iterating over (so the iteration skips past them),
and appends the block plus a terminating blank line to the output. The
explicit fuel keeps the recursion structural; since the index grows by one
per step and the list never grows, `l.length + 1` steps always complete the
scan. -/
def fieldRegroupGo : Nat → List Str → Nat → List Str
  | 0, _, _ => []
  | fuel + 1, l, i =>
    if h : i < l.length then
      let child := l.get ⟨i, h⟩
      if "..".toList.isPrefixOf child then
        let blocks := child ::
          (l.drop (i + 1)).takeWhile (fun b => "    ".toList.isPrefixOf b || b = [])
        let l1 := l.take i ++ l.drop (i + blocks.length - 1)
        (blocks ++ if blocks.getLastD [] ≠ [] then [([] : Str)] else []) ++
          fieldRegroupGo fuel l1 (i + 1)
      else child :: fieldRegroupGo fuel l (i + 1)
    else []

/-- The `children_processed` list built by `Formatters.field` from the body
lines after the first. -/
def fieldRegroup (lines : List Str) : List Str := fieldRegroupGo (lines.length + 1) lines 0

/-- Context operation `wrap_first_at` (docstrfmt.py lines 282-290). -/
def FormatContext.wrapFirstAt (ctx : FormatContext) (w : Int) : FormatContext :=
  { ctx with firstLineLen := w }

/-- Context operation `with_width` (docstrfmt.py lines 272-280). -/
def FormatContext.withWidth (ctx : FormatContext) (w : Option Int) : FormatContext :=
  { ctx with width := w }

/-- The renderer for the embedded node fragment, following the corresponding
formatters of the `Formatters` class; `_format_children` renders every child
after the first with `context.wrap_first_at(0)`. Recursion is bounded by an
explicit fuel, which any finite tree exhausts only artificially. -/
def render : Nat → FormatContext → Node → Except RenderError (List Str)
  | 0, _, _ => .error .fuel
  | _ + 1, _, .text s => .ok [removeEscSpace s]
  | fuel + 1, ctx, .paragraph cs => do
    let ctxEff := if ctx.isDocstring then { ctx.withWidth none with isDocstring := false } else ctx
    let parts ← cs.enum.mapM (fun ic =>
      render fuel (if ic.1 = 0 then ctxEff else ctxEff.wrapFirstAt 0) ic.2)
    let items := parts.flatten.map InlineItem.str
    match wrapText ctxEff.width items ctx.subsequentIndent ctx.firstLineLen with
    | .error _ => .error .invalidWidth
    | .ok ls => .ok ls
  | fuel + 1, ctx, .comment cs => do
    let parts ← cs.enum.mapM (fun ic =>
      render fuel (if ic.1 = 0 then ctx else ctx.wrapFirstAt 0) ic.2)
    let text := joinWithNl parts.flatten
    if cs.length = 1 ∧ ¬ ('\n' ∈ text) then .ok [".. ".toList ++ text]
    else .ok ("..".toList :: (if !cs.isEmpty then withSpaces 4 (splitLines text) else []))
  | fuel + 1, ctx, .field_name cs => do
    let parts ← cs.enum.mapM (fun ic =>
      render fuel (if ic.1 = 0 then ctx else ctx.wrapFirstAt 0) ic.2)
    .ok [fieldNameBody (joinWithSpace parts.flatten)]
  | _ + 1, _, .field_body _ =>
    .error (.rst "field_body rendered outside a field".toList)
  | fuel + 1, ctx, .field cs => do
    let pnt := astext (cs.headD (Node.text []))
    let parts ← cs.enum.mapM (fun ic =>
      let cctx := if ic.1 = 0 then ctx else ctx.wrapFirstAt 0
      match ic.2 with
      | .field_body bcs => do
        let ctx1 := (cctx.indent 4).wrapFirstAt ((pnt.length : Int) + 3 - 4)
        let bparts ← bcs.enum.mapM (fun jc =>
          render fuel (if jc.1 = 0 then ctx1 else ctx1.wrapFirstAt 0) jc.2)
        pure (chainWithSep [] bparts)
      | c => render fuel cctx c)
    match parts.flatten with
    | [] => .error (.rst "empty field".toList)
    | fieldName :: rest =>
      let isEmptyMeta := [":nocomments", ":nosearch", ":orphan"].any
        (fun p => p.toList.isPrefixOf fieldName)
      match rest with
      | [] =>
        if isEmptyMeta then .ok (fieldName :: rest)
        else .error (.rst ("Empty `:".toList ++ pyStrip (astext (Node.field cs))
          ++ ":` field. Please add a field body or omit completely.".toList))
      | firstLine :: rest2 =>
        if firstLine ≠ [] ∧ isEmptyMeta then
          .error (.rst ("Non-empty Sphinx `".toList ++ fieldName
            ++ "` metadata field. Please remove field body or omit completely.".toList))
        else
          .ok ((fieldName ++ [' '] ++ firstLine) :: withSpaces 4 (fieldRegroup rest2))
  | fuel + 1, ctx, .field_list cs => do
    let out ← processFieldList cs
    let pl ← (out.paramFields.map Prod.fst).mapM (render fuel ctx)
    let rl ← ((out.returnsFields ++ out.rtypeFields).map Prod.fst).mapM (render fuel ctx)
    let ral ← (out.raisesFields.map Prod.fst).mapM (render fuel ctx)
    let vl ← (out.varFields.map Prod.fst).mapM (render fuel ctx)
    let ol ← (out.otherFields.map Prod.fst).mapM (render fuel ctx)
    let s1 := if !out.paramFields.isEmpty &&
        !(out.returnsFields ++ out.rtypeFields ++ out.raisesFields ++ out.varFields
          ++ out.otherFields).isEmpty then [([] : Str)] else []
    let s2 := if !(out.returnsFields ++ out.rtypeFields).isEmpty &&
        !(out.raisesFields ++ out.varFields ++ out.otherFields).isEmpty then [([] : Str)] else []
    let s3 := if !out.raisesFields.isEmpty && !(out.varFields ++ out.otherFields).isEmpty then
        [([] : Str)] else []
    let s4 := if !out.varFields.isEmpty && !out.otherFields.isEmpty then [([] : Str)] else []
    .ok (pl.flatten ++ s1 ++ rl.flatten ++ s2 ++ ral.flatten ++ s3 ++ vl.flatten
      ++ s4 ++ ol.flatten)
  | fuel + 1, ctx, .document cs => do
    let parts ← cs.enum.mapM (fun ic =>
      render fuel (if ic.1 = 0 then ctx else ctx.wrapFirstAt 0) ic.2)
    .ok (chainWithSep [] parts)

/-- The context `Manager.format_node` builds for a fresh render
(docstrfmt.py lines 502-512). -/
def initialContext (width : Int) (isDocstring : Bool) : FormatContext :=
  ⟨some width, "<file>", some width, "", [], 0, 0, 0, "arabic", 0, 0, none, isDocstring⟩

/-- Embedding of `Manager.format_node` (docstrfmt.py lines 486-514): join the
rendered lines with newlines and append one final newline. -/
def formatNode (fuel : Nat) (width : Int) (node : Node) (isDocstring : Bool) :
    Except RenderError Str := do
  let ls ← render fuel (initialContext width isDocstring) node
  .ok (joinWithNl ls ++ ['\n'])

/-- A field node `:param x: foo`. -/
def exParamField : Node :=
  .field [.field_name [.text "param x".toList], .field_body [.paragraph [.text "foo".toList]]]

/-- A field node `:type x: int`. -/
def exTypeField : Node :=
  .field [.field_name [.text "type x".toList], .field_body [.paragraph [.text "int".toList]]]

/-- A field node `:param int x: foo`, carrying an inline type. -/
def exTypedParamField : Node :=
  .field [.field_name [.text "param int x".toList],
    .field_body [.paragraph [.text "foo".toList]]]

/-- A field node `:type x: str`. -/
def exTypeFieldStr : Node :=
  .field [.field_name [.text "type x".toList], .field_body [.paragraph [.text "str".toList]]]

/-- The document parsed from `":param x: foo\n\n    .. a comment\n"`: a field
list whose single field's body is a paragraph followed by a comment. -/
def trailingCommentFieldDoc : Node :=
  .document [.field_list [.field [.field_name [.text "param x".toList],
    .field_body [.paragraph [.text "foo".toList], .comment [.text "a comment".toList]]]]]

/-- A context as seen by a `list_item` inside an enumerated list: the
enumerated-list formatter has set `current_ordinal` to 1 on the context it
shares with all its items. -/
def listItemExampleCtx : FormatContext := { initialContext 88 false with currentOrdinal := 1 }

/-- The context of the outermost docstring render, before its first paragraph
is formatted. -/
def docstringExampleCtx : FormatContext := initialContext 88 true

/-- All bucket entries of a classification state, in bucket order. -/
def allBuckets (st : FieldState) : List (Node × Option Str) :=
  st.paramFields ++ st.varFields ++ st.returnsFields ++ st.rtypeFields ++
    st.raisesFields ++ st.otherFields

/-- All bucket entries of the processed field list, in bucket order. -/
def allOutFields (out : FieldListOut) : List (Node × Option Str) :=
  out.paramFields ++ out.varFields ++ out.returnsFields ++ out.rtypeFields ++
    out.raisesFields ++ out.otherFields

/-- The buckets produced for the field list `:param x: foo` / `:type x: int`:
the type field is consumed and its value merged into the param field name. -/
def exMergedOut : FieldListOut :=
  ⟨[(.field [.field_name [.text "param int x".toList],
      .field_body [.paragraph [.text "foo".toList]]], some "x".toList)],
   [], [], [], [], []⟩

/-- C2, counterexample. The claim that after rendering one child the fields of
the context shared with the next sibling (including `is_docstring`, `bullet`
and `current_ordinal`) are unchanged is false: `list_item` mutates the shared
context's `current_ordinal` from 1 to 2 and its `bullet` from `""` to `"1."`
in place, and `paragraph` mutates the shared context's `is_docstring` from
`True` to `False` in place. -/
theorem context_inplace_mutation_counterexample :
    (listItemSharedUpdate listItemExampleCtx).map FormatContext.currentOrdinal =
      .ok 2 ∧
    listItemExampleCtx.currentOrdinal = 1 ∧ (2 : Int) ≠ 1 ∧
    (listItemSharedUpdate listItemExampleCtx).map FormatContext.bullet = .ok "1." ∧
    listItemExampleCtx.bullet = "" ∧
    (paragraphSharedUpdate docstringExampleCtx).isDocstring = false ∧
    docstringExampleCtx.isDocstring = true :=
  ⟨rfl, rfl, by decide, rfl, rfl, rfl, rfl⟩

/-- C2, amended. The in-place mutations formatters perform on the context
object shared with later siblings are exactly these: `list_item` updates
`bullet` and increments `current_ordinal` (when a non-zero ordinal is active
and the bullet is not a plain list bullet) and leaves every other field
unchanged; `paragraph` clears `is_docstring` and changes nothing else;
`enumerated_list` resets `current_ordinal` to 0 after its items. All other
context modifications go through `_replace` copies. -/
theorem context_sibling_mutation_frame :
    (∀ ctx ctx2, listItemSharedUpdate ctx = .ok ctx2 →
      ctx2.width = ctx.width ∧ ctx2.currentFile = ctx.currentFile ∧
      ctx2.startingWidth = ctx.startingWidth ∧ ctx2.columnWidths = ctx.columnWidths ∧
      ctx2.firstLineLen = ctx.firstLineLen ∧ ctx2.lineBlockDepth = ctx.lineBlockDepth ∧
      ctx2.ordinalFormat = ctx.ordinalFormat ∧ ctx2.sectionDepth = ctx.sectionDepth ∧
      ctx2.subsequentIndent = ctx.subsequentIndent ∧
      ctx2.useAdornments = ctx.useAdornments ∧ ctx2.isDocstring = ctx.isDocstring ∧
      ((ctx.currentOrdinal ≠ 0 ∧ ctx.bullet ∉ (["-", "*", "+"] : List String)) →
        ctx2.currentOrdinal = ctx.currentOrdinal + 1)) ∧
    (∀ ctx, paragraphSharedUpdate ctx = { ctx with isDocstring := false } ∨
      paragraphSharedUpdate ctx = ctx) ∧
    (∀ ctx, (paragraphSharedUpdate ctx).isDocstring = false) ∧
    (∀ ctx, enumeratedListSharedUpdate ctx = { ctx with currentOrdinal := 0 }) := by
  refine ⟨?_, ?_, ?_, ?_⟩
  · intro ctx ctx2 h
    unfold listItemSharedUpdate at h
    by_cases hc : ctx.currentOrdinal ≠ 0 ∧ ctx.bullet ∉ (["-", "*", "+"] : List String)
    · rw [if_pos hc] at h
      cases hE : makeEnumerator ctx.currentOrdinal ctx.ordinalFormat "" "." with
      | error e => rw [hE] at h; simp [Bind.bind, Except.bind] at h
      | ok b =>
        rw [hE] at h
        simp only [Bind.bind, Except.bind, pure, Except.pure, Except.ok.injEq] at h
        subst h
        simp
    · rw [if_neg hc] at h
      simp only [pure, Except.pure, Except.ok.injEq] at h
      subst h
      exact ⟨rfl, rfl, rfl, rfl, rfl, rfl, rfl, rfl, rfl, rfl, rfl,
        fun hcon => absurd hcon hc⟩
  · intro ctx
    unfold paragraphSharedUpdate
    by_cases hd : ctx.isDocstring
    · rw [if_pos hd]; exact Or.inl rfl
    · rw [if_neg hd]; exact Or.inr rfl
  · intro ctx
    unfold paragraphSharedUpdate
    by_cases hd : ctx.isDocstring
    · rw [if_pos hd]
    · rw [if_neg hd]; simpa using hd
  · intro ctx; rfl

/-- C2, witness. The frame theorem applied to the concrete enumerated-list
context. -/
theorem context_sibling_mutation_frame_witness :
    listItemExampleCtx.currentOrdinal ≠ 0 ∧
    ((listItemSharedUpdate listItemExampleCtx = .ok
        { listItemExampleCtx with bullet := "1.", currentOrdinal := 2 }) ∧
      ({ listItemExampleCtx with bullet := "1.", currentOrdinal := 2 } :
        FormatContext).isDocstring = listItemExampleCtx.isDocstring) :=
  ⟨by decide, rfl,
    (context_sibling_mutation_frame.1 listItemExampleCtx
      { listItemExampleCtx with bullet := "1.", currentOrdinal := 2 } rfl).2.2.2.2.2.2.2.2.2.2.1⟩

/-- C8, counterexample. For the title `abc` with an overline the adornment
line is the character repeated 5 times, not `len(text) = 3` times as the
claim states. -/
theorem title_overline_length_counterexample :
    (titleLines "abc".toList '#' true).headD [] = List.replicate 5 '#' ∧
    List.replicate 5 '#' ≠ List.replicate ("abc".toList.length) '#' := by
  decide

/-- C8, amended. A title without overline renders as the text line followed by
an underline of the adornment character repeated exactly `len(text)` times;
with an overline requested, the text is indented by one space and enclosed in
two adornment lines of the character repeated `len(text) + 2` times. -/
theorem title_adornment_lines : ∀ (text : Str) (char : Char),
    titleLines text char false = [text, List.replicate text.length char] ∧
    titleLines text char true = [List.replicate (text.length + 2) char, ' ' :: text,
      List.replicate (text.length + 2) char] := by
  intro text char
  constructor <;> simp [titleLines, Nat.add_comm]

/-- C9. Evaluating the formatter at the document parsed from
`":param x: foo\n\n    .. a comment\n"` at width 88: the `field` formatter
emits a trailing empty line after the comment block, so `format_node` returns
a string ending in two newline characters, contradicting the exactly-one
trailing newline contract. -/
theorem format_node_double_newline :
    formatNode 100 88 trailingCommentFieldDoc false =
      .ok ":param x: foo\n\n    .. a comment\n\n".toList ∧
    List.isSuffixOf "\n\n".toList ":param x: foo\n\n    .. a comment\n\n".toList := by
  exact ⟨rfl, by decide⟩

/-- Auxiliary for C10: any chain of `indent` operations on a context with a
numeric width keeps the width at least 1. -/
theorem foldl_indent_width : ∀ (ss : List Int) (ctx : FormatContext) (v : Int),
    ctx.width = some v → 1 ≤ v →
    ∃ w2, ((ss.foldl FormatContext.indent ctx).width = some w2 ∧ 1 ≤ w2) := by
  intro ss
  induction ss with
  | nil => intro ctx v h hv; exact ⟨v, h, hv⟩
  | cons s ss ih =>
    intro ctx v h hv
    have h2 : (ctx.indent s).width = some (max 1 (v - s)) := by
      simp [FormatContext.indent, h]
    exact ih (ctx.indent s) (max 1 (v - s)) h2 (le_max_left 1 (v - s))

/-- C10. `indent(spaces)` replaces the width by `max(1, width - spaces)`, so
the width after any chain of indents stays at least 1 and the
`Invalid starting width` branch of `_wrap_text` is unreachable through
indentation alone. -/
theorem indent_width_floor : ∀ (ctx : FormatContext) (w spaces : Int) (ss : List Int),
    ctx.width = some w → 1 ≤ w → 0 ≤ spaces →
    (ctx.indent spaces).width = some (max 1 (w - spaces)) ∧
    1 ≤ max 1 (w - spaces) ∧
    ∃ w2, ((ss.foldl FormatContext.indent (ctx.indent spaces)).width = some w2 ∧ 1 ≤ w2 ∧
      ∀ (items : List InlineItem) (si : Nat) (fll : Int),
        wrapText (some w2) items si fll ≠ .error .invalidStartingWidth) := by
  intro ctx w spaces ss h hw _
  have h1 : (ctx.indent spaces).width = some (max 1 (w - spaces)) := by
    simp [FormatContext.indent, h]
  refine ⟨h1, le_max_left 1 (w - spaces), ?_⟩
  obtain ⟨w2, hw2, hw2pos⟩ :=
    foldl_indent_width ss (ctx.indent spaces) (max 1 (w - spaces)) h1
      (le_max_left 1 (w - spaces))
  refine ⟨w2, hw2, hw2pos, ?_⟩
  intro items si fll
  simp only [wrapText]
  rw [if_neg (by omega : ¬ w2 ≤ 0)]
  simp

/-- C10, witness. The width bound at a concrete context and indent chain. -/
theorem indent_width_floor_witness :
    ((initialContext 80 false).indent 4).width = some (max 1 ((80 : Int) - 4)) ∧
    1 ≤ max 1 ((80 : Int) - 4) ∧
    ∃ w2, ((([100, 3] : List Int).foldl FormatContext.indent
        ((initialContext 80 false).indent 4)).width = some w2 ∧ 1 ≤ w2 ∧
      ∀ (items : List InlineItem) (si : Nat) (fll : Int),
        wrapText (some w2) items si fll ≠ .error .invalidStartingWidth) :=
  indent_width_floor (initialContext 80 false) 80 4 [100, 3] rfl (by decide) (by decide)

/-- Splitting on a character never yields the empty list of pieces. -/
theorem splitOnCharList_ne_nil (sep : Char) : ∀ l, splitOnCharList sep l ≠ [] := by
  intro l
  induction l with
  | nil => simp [splitOnCharList]
  | cons c rest ih =>
    rw [splitOnCharList]
    by_cases hc : c = sep
    · rw [if_pos hc]; simp
    · rw [if_neg hc]
      cases hs : splitOnCharList sep rest with
      | nil => simp
      | cons s ss => simp

/-- A piece containing no separator splits into itself alone. -/
theorem splitOnCharList_no_sep (sep : Char) :
    ∀ l, (∀ c ∈ l, c ≠ sep) → splitOnCharList sep l = [l] := by
  intro l
  induction l with
  | nil => intro _; rfl
  | cons c rest ih =>
    intro h
    rw [splitOnCharList, if_neg (h c (by simp))]
    rw [ih (fun x hx => h x (by simp [hx]))]

/-- Splitting a text whose first word contains no separator peels that word. -/
theorem splitOnCharList_append_sep (sep : Char) :
    ∀ (w rest : Str), (∀ c ∈ w, c ≠ sep) →
      splitOnCharList sep (w ++ sep :: rest) = w :: splitOnCharList sep rest := by
  intro w
  induction w with
  | nil => intro rest _; simp [splitOnCharList]
  | cons c w ih =>
    intro rest h
    rw [List.cons_append, splitOnCharList, if_neg (h c (by simp))]
    rw [ih rest (fun x hx => h x (by simp [hx]))]

/-- Space-joining a list with at least two entries starts with the first word
and a space. -/
theorem joinWithSpace_cons_ne (w : Str) (l : List Str) (h : l ≠ []) :
    joinWithSpace (w :: l) = w ++ ' ' :: joinWithSpace l := by
  cases l with
  | nil => exact absurd rfl h
  | cons x xs => rfl

/-- A successful association-list lookup comes from a member pair. -/
theorem lookup_mem_pair {α β : Type} [BEq α] [LawfulBEq α] :
    ∀ (l : List (α × β)) (a : α) (b : β), List.lookup a l = some b → (a, b) ∈ l := by
  intro l
  induction l with
  | nil => intro a b h; simp [List.lookup] at h
  | cons p rest ih =>
    intro a b h
    rw [List.lookup] at h
    by_cases hp : (a == p.1) = true
    · rw [hp] at h
      simp only [Option.some.injEq] at h
      cases p with
      | mk k v =>
        simp only [beq_iff_eq] at hp
        subst hp
        subst h
        exact List.mem_cons_self _ _
    · rw [Bool.not_eq_true] at hp
      rw [hp] at h
      exact List.mem_cons_of_mem p (ih a b h)

/-- Every canonical kind in the mapping is a non-empty space-free word, is a
fixed point of the mapping, and is not `type` or `vartype`. -/
theorem mapping_value_props : ∀ p ∈ fieldNameMapping,
    (∀ c ∈ p.2, c ≠ ' ') ∧ p.2 ≠ [] ∧
    List.lookup p.2 fieldNameMapping = some p.2 ∧
    p.2 ≠ "type".toList ∧ p.2 ≠ "vartype".toList := by
  decide

/-- The name text of a field after its field-name child was replaced. -/
theorem fieldNameText_field_replace (txt : Str) (cs : List Node) :
    fieldNameText (.field (.field_name [.text txt] :: cs)) = txt := by
  simp [fieldNameText, nodeChildren, astext, astextList, joinWithStr]

/-- The first component of the split name text is the first split piece in
both branches of the destructuring. -/
theorem splitFieldNameText_fst (s : Str) :
    (splitFieldNameText s).1 = (splitOnSpace s).headD [] := by
  simp only [splitFieldNameText]
  split <;> rfl

/-- Recomputing the kind of a field after replacing its name: either the node
is a `field` and the kind is computed from the new text's first word, or the
replacement was the identity. -/
theorem fieldKindOf_replace_general (f : Node) (txt : Str) :
    fieldKindOf (replaceFieldNameChild f txt) =
      (List.lookup ((splitOnSpace txt).headD []) fieldNameMapping).getD
        ((splitOnSpace txt).headD []) ∨
    replaceFieldNameChild f txt = f := by
  cases f with
  | field cs =>
    left
    unfold fieldKindOf fieldKind0
    rw [replaceFieldNameChild, fieldNameText_field_replace, splitFieldNameText_fst]
  | text s => right; rfl
  | paragraph cs => right; rfl
  | comment cs => right; rfl
  | field_name cs => right; rfl
  | field_body cs => right; rfl
  | field_list cs => right; rfl
  | document cs => right; rfl

/-- Canonicalizing a field's name does not change its recomputed canonical
kind. -/
theorem fieldKindOf_classifiedNode (f : Node) :
    fieldKindOf (classifiedNode f) = fieldKindOf f := by
  unfold classifiedNode
  by_cases hc : fieldKindOf f ≠ fieldKind0 f
  · rw [if_pos hc]
    cases hL : List.lookup (fieldKind0 f) fieldNameMapping with
    | none =>
      exfalso
      apply hc
      unfold fieldKindOf
      rw [hL]
      rfl
    | some v =>
      have hv : fieldKindOf f = v := by unfold fieldKindOf; rw [hL]; rfl
      obtain ⟨hspace, hne, hfix, _, _⟩ := mapping_value_props _ (lookup_mem_pair _ _ _ hL)
      have hhead : (splitOnSpace (canonNewNameText f)).headD [] = v := by
        unfold canonNewNameText
        rw [hv, List.singleton_append]
        cases htail : canonTail f with
        | nil =>
          show (splitOnSpace (joinWithSpace [v])).headD [] = v
          unfold splitOnSpace
          rw [show joinWithSpace [v] = v from rfl, splitOnCharList_no_sep ' ' v hspace]
          rfl
        | cons x xs =>
          rw [joinWithSpace_cons_ne v (x :: xs) (by simp)]
          unfold splitOnSpace
          rw [splitOnCharList_append_sep ' ' v _ hspace]
          rfl
      rcases fieldKindOf_replace_general f (canonNewNameText f) with h | h
      · rw [h, hhead, hfix]
        exact hv.symm
      · rw [h]
  · rw [if_neg hc]

/-- Recomputing the kind of a field whose name the type-merging pass rewrote
to `"<kind> <type> <name>"`: the kind is the canonical image of `fk`, or the
node was not a `field` and is unchanged. -/
theorem fieldKindOf_merge_replace (f : Node) (fk v tail : Str)
    (hspace : ∀ c ∈ fk, c ≠ ' ') :
    fieldKindOf (replaceFieldNameChild f (fk ++ [' '] ++ v ++ [' '] ++ tail)) =
      (List.lookup fk fieldNameMapping).getD fk ∨
    replaceFieldNameChild f (fk ++ [' '] ++ v ++ [' '] ++ tail) = f := by
  rcases fieldKindOf_replace_general f (fk ++ [' '] ++ v ++ [' '] ++ tail) with h | h
  · left
    rw [h]
    have hr : fk ++ [' '] ++ v ++ [' '] ++ tail = fk ++ ' ' :: (v ++ ' ' :: tail) := by
      simp
    rw [hr]
    unfold splitOnSpace
    rw [splitOnCharList_append_sep ' ' fk _ hspace]
    rfl
  · right; exact h

/-- Extending the param bucket adds one possible member. -/
theorem mem_allBuckets_param {st : FieldState} {x p : Node × Option Str}
    (hp : p ∈ allBuckets { st with paramFields := st.paramFields ++ [x] }) :
    p ∈ allBuckets st ∨ p = x := by
  simp only [allBuckets, List.mem_append, List.mem_singleton] at hp ⊢
  tauto

/-- Extending the var bucket adds one possible member. -/
theorem mem_allBuckets_var {st : FieldState} {x p : Node × Option Str}
    (hp : p ∈ allBuckets { st with varFields := st.varFields ++ [x] }) :
    p ∈ allBuckets st ∨ p = x := by
  simp only [allBuckets, List.mem_append, List.mem_singleton] at hp ⊢
  tauto

/-- Extending the returns bucket adds one possible member. -/
theorem mem_allBuckets_returns {st : FieldState} {x p : Node × Option Str}
    (hp : p ∈ allBuckets { st with returnsFields := st.returnsFields ++ [x] }) :
    p ∈ allBuckets st ∨ p = x := by
  simp only [allBuckets, List.mem_append, List.mem_singleton] at hp ⊢
  tauto

/-- Extending the rtype bucket adds one possible member. -/
theorem mem_allBuckets_rtype {st : FieldState} {x p : Node × Option Str}
    (hp : p ∈ allBuckets { st with rtypeFields := st.rtypeFields ++ [x] }) :
    p ∈ allBuckets st ∨ p = x := by
  simp only [allBuckets, List.mem_append, List.mem_singleton] at hp ⊢
  tauto

/-- Extending the raises bucket adds one possible member. -/
theorem mem_allBuckets_raises {st : FieldState} {x p : Node × Option Str}
    (hp : p ∈ allBuckets { st with raisesFields := st.raisesFields ++ [x] }) :
    p ∈ allBuckets st ∨ p = x := by
  simp only [allBuckets, List.mem_append, List.mem_singleton] at hp ⊢
  tauto

/-- Extending the other bucket adds one possible member. -/
theorem mem_allBuckets_other {st : FieldState} {x p : Node × Option Str}
    (hp : p ∈ allBuckets { st with otherFields := st.otherFields ++ [x] }) :
    p ∈ allBuckets st ∨ p = x := by
  simp only [allBuckets, List.mem_append, List.mem_singleton] at hp ⊢
  tauto

/-- Updating the type dictionaries or the `already_typed` list leaves the
buckets unchanged. -/
theorem allBuckets_paramTypes (st : FieldState) (d : List (Option Str × Str)) :
    allBuckets { st with paramTypes := d } = allBuckets st := rfl

/-- Updating the vartype dictionary leaves the buckets unchanged. -/
theorem allBuckets_varTypes (st : FieldState) (d : List (Option Str × Str)) :
    allBuckets { st with varTypes := d } = allBuckets st := rfl

/-- Updating the `already_typed` list leaves the buckets unchanged. -/
theorem allBuckets_alreadyTyped (st : FieldState) (d : List (Option Str)) :
    allBuckets { st with alreadyTyped := d } = allBuckets st := rfl

set_option maxHeartbeats 800000 in
/-- The classification loop never places a field whose canonical kind is
`type` or `vartype` into any bucket. -/
theorem classifyFields_kinds : ∀ (fs : List Node) (st st2 : FieldState),
    classifyFields fs st = .ok st2 →
    (∀ p ∈ allBuckets st,
      fieldKindOf p.1 ≠ "type".toList ∧ fieldKindOf p.1 ≠ "vartype".toList) →
    ∀ p ∈ allBuckets st2,
      fieldKindOf p.1 ≠ "type".toList ∧ fieldKindOf p.1 ≠ "vartype".toList := by
  intro fs
  induction fs with
  | nil =>
    intro st st2 h hg
    simp only [classifyFields, Except.ok.injEq] at h
    subst h
    exact hg
  | cons f rest ih =>
    intro st st2 h hg
    simp only [classifyFields] at h
    by_cases htv : fieldKindOf f = "type".toList ∨ fieldKindOf f = "vartype".toList
    · rw [if_pos htv] at h
      by_cases hml : '\n' ∈ fieldBodyFirstText f
      · rw [if_pos hml] at h
        simp at h
      · rw [if_neg hml] at h
        by_cases hty : fieldKindOf f = "type".toList
        · rw [if_pos hty] at h
          refine ih _ _ h ?_
          rw [allBuckets_paramTypes]
          exact hg
        · rw [if_neg hty] at h
          refine ih _ _ h ?_
          rw [allBuckets_varTypes]
          exact hg
    · rw [if_neg htv] at h
      push_neg at htv
      have hgood : fieldKindOf (classifiedNode f) ≠ "type".toList ∧
          fieldKindOf (classifiedNode f) ≠ "vartype".toList := by
        rw [fieldKindOf_classifiedNode]
        exact htv
      have hg2 : ∀ p ∈ allBuckets (if fieldTyping f ≠ [] then
          { st with alreadyTyped := st.alreadyTyped ++ [fieldSplitName f] } else st),
          fieldKindOf p.1 ≠ "type".toList ∧ fieldKindOf p.1 ≠ "vartype".toList := by
        split
        · rw [allBuckets_alreadyTyped]
          exact hg
        · exact hg
      by_cases h1 : fieldKindOf f = "param".toList
      · rw [if_pos h1] at h
        refine ih _ _ h ?_
        intro p hp
        rcases mem_allBuckets_param hp with hin | heq
        · exact hg2 p hin
        · subst heq; exact hgood
      · rw [if_neg h1] at h
        by_cases h2 : fieldKindOf f = "var".toList
        · rw [if_pos h2] at h
          refine ih _ _ h ?_
          intro p hp
          rcases mem_allBuckets_var hp with hin | heq
          · exact hg2 p hin
          · subst heq; exact hgood
        · rw [if_neg h2] at h
          by_cases h3 : fieldKindOf f = "returns".toList
          · rw [if_pos h3] at h
            split at h
            · rename_i htyp2
              split at h
              · simp at h
              · refine ih _ _ h ?_
                intro p hp
                rw [if_pos htyp2] at hg2
                rcases mem_allBuckets_returns hp with hin | heq
                · exact hg2 p hin
                · subst heq; exact hgood
            · rename_i htyp2
              split at h
              · simp at h
              · refine ih _ _ h ?_
                intro p hp
                rw [if_neg htyp2] at hg2
                rcases mem_allBuckets_returns hp with hin | heq
                · exact hg2 p hin
                · subst heq; exact hgood
          · rw [if_neg h3] at h
            by_cases h5 : fieldKindOf f = "rtype".toList
            · rw [if_pos h5] at h
              refine ih _ _ h ?_
              intro p hp
              rcases mem_allBuckets_rtype hp with hin | heq
              · exact hg2 p hin
              · subst heq; exact hgood
            · rw [if_neg h5] at h
              by_cases h6 : fieldKindOf f = "raises".toList
              · rw [if_pos h6] at h
                refine ih _ _ h ?_
                intro p hp
                rcases mem_allBuckets_raises hp with hin | heq
                · exact hg2 p hin
                · subst heq; exact hgood
              · rw [if_neg h6] at h
                refine ih _ _ h ?_
                intro p hp
                rcases mem_allBuckets_other hp with hin | heq
                · exact hg2 p hin
                · subst heq; exact hgood

/-- The type-merging pass preserves the canonical kinds being distinct from
`type`/`vartype`, for the two kinds it is ever called with. -/
theorem mergeTypeFields_kinds : ∀ (bucket : List (Node × Option Str))
    (types : List (Option Str × Str)) (at2 : List (Option Str)) (tfn fk : Str)
    (out : List (Node × Option Str)),
    (fk = "param".toList ∨ fk = "var".toList) →
    mergeTypeFields types at2 tfn fk bucket = .ok out →
    (∀ p ∈ bucket,
      fieldKindOf p.1 ≠ "type".toList ∧ fieldKindOf p.1 ≠ "vartype".toList) →
    ∀ p ∈ out,
      fieldKindOf p.1 ≠ "type".toList ∧ fieldKindOf p.1 ≠ "vartype".toList := by
  intro bucket
  induction bucket with
  | nil =>
    intro types at2 tfn fk out _ h hg
    simp only [mergeTypeFields, Except.ok.injEq] at h
    subst h
    exact hg
  | cons q rest ih =>
    intro types at2 tfn fk out hfk h hg
    obtain ⟨f, got⟩ := q
    simp only [mergeTypeFields] at h
    split at h
    · simp at h
    · cases hl : List.lookup got types with
      | none =>
        rw [hl] at h
        cases hrec : mergeTypeFields types at2 tfn fk rest with
        | error e =>
          rw [hrec] at h
          simp [Bind.bind, Except.bind] at h
        | ok rest1 =>
          rw [hrec] at h
          simp only [Bind.bind, Except.bind, Except.ok.injEq] at h
          rw [← h]
          intro p hp
          rcases List.mem_cons.1 hp with hph | hpt
          · rw [hph]
            exact hg (f, got) (List.mem_cons_self _ _)
          · exact ih types at2 tfn fk rest1 hfk hrec
              (fun r hr => hg r (List.mem_cons_of_mem _ hr)) p hpt
      | some v =>
        rw [hl] at h
        cases hrec : mergeTypeFields types at2 tfn fk rest with
        | error e =>
          rw [hrec] at h
          simp [Bind.bind, Except.bind] at h
        | ok rest1 =>
          rw [hrec] at h
          simp only [Bind.bind, Except.bind, Except.ok.injEq] at h
          rw [← h]
          intro p hp
          rcases List.mem_cons.1 hp with hph | hpt
          · rw [hph]
            show fieldKindOf (if v ≠ [] then
                replaceFieldNameChild f (fk ++ [' '] ++ v ++ [' '] ++ pyOptStr got)
              else f) ≠ "type".toList ∧
              fieldKindOf (if v ≠ [] then
                replaceFieldNameChild f (fk ++ [' '] ++ v ++ [' '] ++ pyOptStr got)
              else f) ≠ "vartype".toList
            by_cases hv : v ≠ []
            · rw [if_pos hv]
              have hsp : ∀ c ∈ fk, c ≠ ' ' := by
                rcases hfk with hp2 | hp2 <;> (subst hp2; decide)
              rcases fieldKindOf_merge_replace f fk v (pyOptStr got) hsp with hk | hk
              · rw [hk]
                rcases hfk with hp2 | hp2 <;> (subst hp2; decide)
              · rw [hk]
                exact hg (f, got) (List.mem_cons_self _ _)
            · rw [if_neg hv]
              exact hg (f, got) (List.mem_cons_self _ _)
          · exact ih types at2 tfn fk rest1 hfk hrec
              (fun r hr => hg r (List.mem_cons_of_mem _ hr)) p hpt

/-- C5. Formatting a field list consumes `:type X:`/`:vartype X:` fields: the
example `:param x: foo` with `:type x: int` renders as `:param int x: foo`
with the type field gone; a `:type x:` field whose matching param already
carries an inline type raises the double-type-hint error; and no field whose
canonical kind is `type` or `vartype` ever survives into the rendered
buckets. -/
theorem field_type_merge :
    (render 100 (initialContext 88 false) (.field_list [exParamField, exTypeField]) =
      .ok [":param int x: foo".toList]) ∧
    (render 100 (initialContext 88 false) (.field_list [exTypedParamField, exTypeFieldStr]) =
      .error (.rst ("Type hint is specified both in the field body and in the"
        ++ " `:type:` field. Please remove one of them.").toList)) ∧
    (∀ (fs : List Node) (out : FieldListOut), processFieldList fs = .ok out →
      ∀ p ∈ allOutFields out,
        fieldKindOf p.1 ≠ "type".toList ∧ fieldKindOf p.1 ≠ "vartype".toList) := by
  refine ⟨rfl, rfl, ?_⟩
  intro fs out h p hp
  simp only [processFieldList] at h
  cases hcl : classifyFields fs emptyFieldState with
  | error e => rw [hcl] at h; simp [Bind.bind, Except.bind] at h
  | ok st =>
    rw [hcl] at h
    simp only [Bind.bind, Except.bind] at h
    cases hm1 : mergeTypeFields st.paramTypes st.alreadyTyped "type".toList
        "param".toList st.paramFields with
    | error e => rw [hm1] at h; simp at h
    | ok param =>
      rw [hm1] at h
      cases hm2 : mergeTypeFields st.varTypes st.alreadyTyped "vartype".toList
          "var".toList st.varFields with
      | error e => rw [hm2] at h; simp at h
      | ok var =>
        rw [hm2] at h
        simp only [Except.ok.injEq] at h
        subst h
        have hst : ∀ q ∈ allBuckets st,
            fieldKindOf q.1 ≠ "type".toList ∧ fieldKindOf q.1 ≠ "vartype".toList :=
          classifyFields_kinds fs emptyFieldState st hcl (by simp [allBuckets, emptyFieldState])
        have hparam := mergeTypeFields_kinds st.paramFields st.paramTypes st.alreadyTyped
          "type".toList "param".toList param (Or.inl rfl) hm1
          (fun q hq => hst q (by simp [allBuckets, hq]))
        have hvar := mergeTypeFields_kinds st.varFields st.varTypes st.alreadyTyped
          "vartype".toList "var".toList var (Or.inr rfl) hm2
          (fun q hq => hst q (by simp [allBuckets, hq]))
        simp only [allOutFields, List.mem_append] at hp
        rcases hp with ((((hp | hp) | hp) | hp) | hp) | hp
        · exact hparam p hp
        · exact hvar p hp
        · exact hst p (by simp [allBuckets, hp])
        · exact hst p (by simp [allBuckets, hp])
        · exact hst p (by simp [allBuckets, hp])
        · exact hst p (by simp [allBuckets, hp])

/-- C5, witness. The consumption statement applied at the concrete example
field list. -/
theorem field_type_merge_witness :
    (processFieldList [exParamField, exTypeField] = .ok exMergedOut) ∧
    (∀ p ∈ allOutFields exMergedOut,
      fieldKindOf p.1 ≠ "type".toList ∧ fieldKindOf p.1 ≠ "vartype".toList) :=
  ⟨rfl, field_type_merge.2.2 [exParamField, exTypeField] exMergedOut rfl⟩

/-- Stable insertion is a permutation of consing. -/
theorem insertLe_perm {α : Type} (le : α → α → Bool) (x : α) :
    ∀ l, List.Perm (insertLe le x l) (x :: l) := by
  intro l
  induction l with
  | nil => exact List.Perm.refl _
  | cons y ys ih =>
    rw [insertLe]
    split
    · exact List.Perm.refl _
    · exact (ih.cons y).trans (List.Perm.swap x y ys)

/-- The stable insertion sort permutes its input. -/
theorem stableSortLe_perm {α : Type} (le : α → α → Bool) :
    ∀ l, List.Perm (stableSortLe le l) l := by
  intro l
  induction l with
  | nil => exact List.Perm.refl _
  | cons x xs ih =>
    exact (insertLe_perm le x (stableSortLe le xs)).trans (ih.cons x)

/-- A key absent from two association lists is absent from their
concatenation. -/
theorem lookup_append_none {α β : Type} [BEq α] :
    ∀ (l l2 : List (α × β)) (k : α), List.lookup k l = none →
      List.lookup k l2 = none → List.lookup k (l ++ l2) = none := by
  intro l
  induction l with
  | nil => intro l2 k _ h2; simpa using h2
  | cons p rest ih =>
    intro l2 k h1 h2
    rw [List.cons_append, List.lookup]
    rw [List.lookup] at h1
    cases hb : k == p.1 with
    | true => rw [hb] at h1; simp at h1
    | false => rw [hb] at h1; exact ih l2 k h1 h2

/-- The popped last entry of `_divide_evenly` is the floor share plus one
exactly when a remainder is left, matching the specification's even share. -/
theorem divideEvenly_getLastD (w : Int) (c : Nat) (hc : 1 ≤ c) :
    (divideEvenly w c).getLastD 0 = evenShareSpec w c := by
  obtain ⟨n, rfl⟩ : ∃ n, c = n + 1 := ⟨c - 1, by omega⟩
  unfold divideEvenly evenShareSpec
  rw [List.range_succ, List.map_append]
  simp only [List.map_cons, List.map_nil]
  rw [List.getLastD_concat]
  have h0 : 0 ≤ Int.emod w (((n + 1 : Nat)) : Int) :=
    Int.emod_nonneg w (by exact_mod_cast Nat.succ_ne_zero n)
  have h1 : n + 1 - 1 - n = 0 := by omega
  rw [h1]
  by_cases hz : Int.emod w (((n + 1 : Nat)) : Int) = 0
  · rw [if_neg (by omega), if_pos hz]
  · rw [if_pos (by omega), if_neg hz]

/-- The compression loop of `Formatters.table` computes exactly the
specification's allocation: with distinct column indices the
`column_lengths` membership test never fires, the running total plays the
role of the remaining budget, and the enumeration counter tracks the number
of remaining columns. -/
theorem allocateLoop_eq_spec (T : Int) (minL : List Nat) (C : Nat) :
    ∀ (items : List (Nat × Nat)) (cur : Int) (acc : List (Nat × Int)) (progress : Nat),
    (items.map Prod.fst).Nodup →
    (∀ p ∈ items, List.lookup p.1 acc = none) →
    progress + items.length ≤ C →
    allocateLoop T minL C items cur acc progress =
      acc ++ allocateSpec minL items (T - cur) (C - progress) := by
  intro items
  induction items with
  | nil =>
    intro cur acc progress _ _ _
    simp [allocateLoop, allocateSpec]
  | cons q rest ih =>
    intro cur acc progress h1 h2 h3
    obtain ⟨idx, w⟩ := q
    have hNone : List.lookup idx acc = none := h2 (idx, w) (List.mem_cons_self _ _)
    have hNodupRest : (rest.map Prod.fst).Nodup := (List.nodup_cons.1 h1).2
    have hIdxNotIn : idx ∉ rest.map Prod.fst := (List.nodup_cons.1 h1).1
    have h2rest : ∀ g : Int, ∀ p ∈ rest, List.lookup p.1 (acc ++ [(idx, g)]) = none := by
      intro g p hp
      refine lookup_append_none acc [(idx, g)] p.1 (h2 p (List.mem_cons_of_mem _ hp)) ?_
      have hne : p.1 ≠ idx := by
        intro he
        exact hIdxNotIn (he ▸ List.mem_map_of_mem Prod.fst hp)
      have hbeq : (p.1 == idx) = false := beq_eq_false_iff_ne.mpr hne
      simp [List.lookup, hbeq]
    have h3rest : (progress + 1) + rest.length ≤ C := by
      simp only [List.length_cons] at h3
      omega
    rw [allocateLoop, allocateSpec]
    rw [hNone]
    simp only [Option.isNone_none, if_true]
    by_cases hfit : cur + (w : Int) ≤ T
    · rw [if_pos hfit, if_pos (by omega : (w : Int) ≤ T - cur)]
      rw [ih (cur + (w : Int)) (acc ++ [(idx, (w : Int))]) (progress + 1)
        hNodupRest (h2rest (w : Int)) h3rest]
      have e1 : T - (cur + (w : Int)) = T - cur - (w : Int) := by ring
      have e2 : C - (progress + 1) = C - progress - 1 := by omega
      rw [e1, e2, List.append_assoc, List.singleton_append]
    · rw [if_neg hfit, if_neg (by omega : ¬ (w : Int) ≤ T - cur)]
      have hshare : (divideEvenly (T - cur) (C - progress)).getLastD 0 =
          evenShareSpec (T - cur) (C - progress) := by
        refine divideEvenly_getLastD (T - cur) (C - progress) ?_
        simp only [List.length_cons] at h3
        omega
      have hmax : ∀ v : Int, (if v < 25 then (25 : Int) else v) = max 25 v := by
        intro v
        split <;> omega
      rw [ih cur (acc ++ [(idx, _)]) (progress + 1) hNodupRest (h2rest _) h3rest]
      have e2 : C - (progress + 1) = C - progress - 1 := by omega
      rw [e2, List.append_assoc, List.singleton_append]
      rw [hshare, hmax]

/-- C3. When the natural column widths exceed the table's width budget, the
compression pass of `Formatters.table` implements exactly the specified
policy: columns in ascending order of maximum natural width; a column still
fitting in full is granted in full; otherwise the natural width when it is
below the even share of the remaining budget over the remaining columns
(remainder apportioned to the last columns) or below 25, else
`max(25, even_share)` when the even share reaches the column minimum, else
the natural width. -/
theorem table_compression_matches_spec :
    ∀ (totalWidth : Int) (maxColLen minColLen : List Nat),
    totalWidth < (maxColLen.map (fun n => (n : Int))).sum →
    tableColumnLengths totalWidth maxColLen minColLen =
      tableColumnLengthsSpec totalWidth maxColLen minColLen := by
  intro totalWidth maxColLen minColLen _
  unfold tableColumnLengths tableColumnLengthsSpec
  have hperm :
      List.Perm (stableSortLe (fun a b => decide (a.2 ≤ b.2)) maxColLen.enum)
        maxColLen.enum :=
    stableSortLe_perm _ _
  have hnodup :
      ((stableSortLe (fun a b => decide (a.2 ≤ b.2)) maxColLen.enum).map Prod.fst).Nodup := by
    refine ((hperm.map Prod.fst).nodup_iff).2 ?_
    rw [List.enum_map_fst]
    exact List.nodup_range _
  have hlen : (stableSortLe (fun a b => decide (a.2 ≤ b.2)) maxColLen.enum).length =
      maxColLen.length := by
    rw [hperm.length_eq, List.enum_length]
  rw [allocateLoop_eq_spec totalWidth minColLen maxColLen.length _ 0 [] 0 hnodup
    (by intro p _; rfl) (by omega)]
  rw [List.nil_append, sub_zero, Nat.sub_zero]

/-- C3, witness. The loop/spec agreement at a concrete overfull table. -/
theorem table_compression_matches_spec_witness :
    ((30 : Int) < (([40, 10, 20] : List Nat).map (fun n => (n : Int))).sum) ∧
    tableColumnLengths 30 [40, 10, 20] [5, 2, 3] =
      tableColumnLengthsSpec 30 [40, 10, 20] [5, 2, 3] :=
  ⟨by decide, table_compression_matches_spec 30 [40, 10, 20] [5, 2, 3] (by decide)⟩

/-- Asymmetry lifts through the lexicographic order on lists. -/
theorem lexLtBy_asymm {α : Type} (lt : α → α → Bool)
    (hasym : ∀ a b, lt a b = true → lt b a = false) :
    ∀ l1 l2, lexLtBy lt l1 l2 = true → lexLtBy lt l2 l1 = false := by
  intro l1
  induction l1 with
  | nil =>
    intro l2 h
    cases l2 with
    | nil => simp [lexLtBy] at h
    | cons b bs => rfl
  | cons a as ih =>
    intro l2 h
    cases l2 with
    | nil => simp [lexLtBy] at h
    | cons b bs =>
      rw [lexLtBy] at h ⊢
      by_cases hab : lt a b = true
      · rw [hasym a b hab]
        rw [if_neg (by simp), if_pos hab]
      · rw [if_neg hab] at h
        by_cases hba : lt b a = true
        · rw [if_pos hba] at h
          exact absurd h (by simp)
        · rw [if_neg hba] at h
          rw [if_neg hba, if_neg hab]
          exact ih bs h

/-- Irreflexivity lifts through the lexicographic order on lists. -/
theorem lexLtBy_irrefl {α : Type} (lt : α → α → Bool)
    (hirr : ∀ a, lt a a = false) : ∀ l, lexLtBy lt l l = false := by
  intro l
  induction l with
  | nil => rfl
  | cons a as ih =>
    rw [lexLtBy, hirr a]
    simp [ih]

/-- The character order is asymmetric. -/
theorem charLtB_asymm : ∀ a b : Char, charLtB a b = true → charLtB b a = false := by
  intro a b h
  simp only [charLtB, decide_eq_true_eq] at h
  simp only [charLtB, decide_eq_false_iff_not]
  exact lt_asymm h

/-- The string order is asymmetric. -/
theorem strLtB_asymm : ∀ a b : Str, strLtB a b = true → strLtB b a = false :=
  lexLtBy_asymm charLtB charLtB_asymm

/-- The names order is asymmetric. -/
theorem namesLtB_asymm : ∀ a b : List Str, namesLtB a b = true → namesLtB b a = false :=
  lexLtBy_asymm strLtB strLtB_asymm

/-- The string order is irreflexive. -/
theorem strLtB_irrefl : ∀ a : Str, strLtB a a = false :=
  lexLtBy_irrefl charLtB (fun a => by simp [charLtB])

/-- The names order is irreflexive. -/
theorem namesLtB_irrefl : ∀ a : List Str, namesLtB a a = false :=
  lexLtBy_irrefl strLtB strLtB_irrefl

/-- The key comparison used on targets is total. -/
theorem tgtLe_total : ∀ a b : TNode, tgtLe a b = false → tgtLe b a = true := by
  intro a b h
  simp only [tgtLe] at h ⊢
  cases hb : namesLtB (tgtNames b) (tgtNames a) with
  | false => rw [hb] at h; simp at h
  | true => rw [namesLtB_asymm _ _ hb]; rfl

/-- Nodes with equal keys always compare `le` (used for stability). -/
theorem tgtLe_of_eq : ∀ a b : TNode, tgtNames a = tgtNames b → tgtLe a b = true := by
  intro a b h
  simp only [tgtLe, Bool.not_eq_true']
  rw [← h, namesLtB_irrefl]

/-- Inserting into an adjacently-sorted list keeps it adjacently sorted. -/
theorem chain'_insertLe (x : TNode) :
    ∀ l, List.Chain' (fun a b => tgtLe a b = true) l →
      List.Chain' (fun a b => tgtLe a b = true) (insertLe tgtLe x l) := by
  intro l
  induction l with
  | nil => intro _; simp [insertLe]
  | cons y ys ih =>
    intro hch
    rw [insertLe]
    by_cases hxy : tgtLe x y = true
    · rw [if_pos hxy]
      exact List.chain'_cons.2 ⟨hxy, hch⟩
    · rw [if_neg hxy]
      have hyx : tgtLe y x = true := tgtLe_total x y (by simpa using hxy)
      cases ys with
      | nil => exact List.chain'_cons.2 ⟨hyx, List.chain'_singleton x⟩
      | cons z zs =>
        have hyz := (List.chain'_cons.1 hch).1
        have hch2 := (List.chain'_cons.1 hch).2
        have hins := ih hch2
        rw [insertLe] at hins ⊢
        by_cases hxz : tgtLe x z = true
        · rw [if_pos hxz] at hins ⊢
          exact List.chain'_cons.2 ⟨hyx, hins⟩
        · rw [if_neg hxz] at hins ⊢
          exact List.chain'_cons.2 ⟨hyz, hins⟩

/-- The stable sort of a target run is adjacently sorted by the key order. -/
theorem chain'_sortTargets :
    ∀ l, List.Chain' (fun a b => tgtLe a b = true) (sortTargets l) := by
  intro l
  induction l with
  | nil => simp [sortTargets, stableSortLe]
  | cons x xs ih => exact chain'_insertLe x _ ih

/-- Inserting an element either prepends it to the key class (when its key
matches) or leaves the key class alone. -/
theorem filter_insertLe (x : TNode) (k : List Str) :
    ∀ l, (insertLe tgtLe x l).filter (fun t => decide (tgtNames t = k)) =
      if tgtNames x = k then x :: l.filter (fun t => decide (tgtNames t = k))
      else l.filter (fun t => decide (tgtNames t = k)) := by
  intro l
  induction l with
  | nil =>
    rw [insertLe]
    by_cases hx : tgtNames x = k
    · rw [if_pos hx]; simp [hx]
    · rw [if_neg hx]; simp [hx]
  | cons y ys ih =>
    rw [insertLe]
    by_cases hxy : tgtLe x y = true
    · rw [if_pos hxy]
      by_cases hx : tgtNames x = k
      · rw [if_pos hx]; simp [hx]
      · rw [if_neg hx]; simp [hx]
    · rw [if_neg hxy]
      have hne : tgtNames x ≠ tgtNames y := by
        intro he
        exact hxy (tgtLe_of_eq x y he)
      by_cases hx : tgtNames x = k
      · rw [if_pos hx]
        have hy : ¬ tgtNames y = k := fun he => hne (hx.trans he.symm)
        rw [List.filter_cons, if_neg (by simpa using hy)]
        rw [ih, if_pos hx, List.filter_cons, if_neg (by simpa using hy)]
      · rw [if_neg hx]
        rw [List.filter_cons, ih, if_neg hx, List.filter_cons]

/-- Stability of the target sort: every key class of the sorted run equals
the key class of the original run in original order. -/
theorem filter_sortTargets : ∀ (l : List TNode) (k : List Str),
    (sortTargets l).filter (fun t => decide (tgtNames t = k)) =
      l.filter (fun t => decide (tgtNames t = k)) := by
  intro l
  induction l with
  | nil => intro k; rfl
  | cons x xs ih =>
    intro k
    show (insertLe tgtLe x (sortTargets xs)).filter _ = _
    rw [filter_insertLe, List.filter_cons]
    by_cases hx : tgtNames x = k
    · rw [if_pos hx, if_pos (by simpa using hx), ih]
    · rw [if_neg hx, if_neg (by simpa using hx), ih]

/-- The run scan commutes with feeding a complete run of targets. -/
theorem sortTargetRunsGo_append : ∀ (run acc : List TNode),
    (∀ t ∈ run, isTargetNode t = true) →
    ∀ tail, sortTargetRunsGo acc (run ++ tail) = sortTargetRunsGo (acc ++ run) tail := by
  intro run
  induction run with
  | nil => intro acc _ tail; simp
  | cons t run2 ih =>
    intro acc h tail
    rw [List.cons_append, sortTargetRunsGo, if_pos (h t (List.mem_cons_self _ _))]
    rw [ih (acc ++ [t]) (fun u hu => h u (List.mem_cons_of_mem _ hu)) tail]
    rw [List.append_assoc, List.singleton_append]

/-- C4. The preprocessing pass stably sorts every contiguous run of target
nodes by the `names` attribute: the claim's example run sorts with the
anonymous targets first and in their original order; a run followed by a
non-target is sorted in place with the rest of the scan untouched; the sorted
run is ascending in the key order (so empty names come first); and every key
class keeps its original relative order (stability). -/
theorem target_run_stable_sort :
    (sortTargetRuns [TNode.target 0 [], TNode.target 1 ["b".toList], TNode.target 2 [],
        TNode.target 3 ["a".toList], TNode.other 9] =
      [TNode.target 0 [], TNode.target 2 [], TNode.target 3 ["a".toList],
        TNode.target 1 ["b".toList], TNode.other 9]) ∧
    (∀ (run : List TNode) (x : TNode) (rest : List TNode),
      (∀ t ∈ run, isTargetNode t = true) → isTargetNode x = false →
      sortTargetRuns (run ++ x :: rest) = sortTargets run ++ x :: sortTargetRuns rest) ∧
    (∀ l : List TNode, List.Chain' (fun a b => tgtLe a b = true) (sortTargets l)) ∧
    (∀ (l : List TNode) (k : List Str),
      (sortTargets l).filter (fun t => decide (tgtNames t = k)) =
        l.filter (fun t => decide (tgtNames t = k))) := by
  refine ⟨by decide, ?_, chain'_sortTargets, filter_sortTargets⟩
  intro run x rest hrun hx
  unfold sortTargetRuns
  rw [sortTargetRunsGo_append run [] hrun (x :: rest)]
  rw [List.nil_append, sortTargetRunsGo, if_neg (by simp [hx])]

/-- C4, witness. The run decomposition applied to the claim's example run. -/
theorem target_run_stable_sort_witness :
    sortTargetRuns ([TNode.target 0 [], TNode.target 1 ["b".toList], TNode.target 2 [],
        TNode.target 3 ["a".toList]] ++ TNode.other 9 :: []) =
      sortTargets [TNode.target 0 [], TNode.target 1 ["b".toList], TNode.target 2 [],
        TNode.target 3 ["a".toList]] ++ TNode.other 9 :: sortTargetRuns [] :=
  target_run_stable_sort.2.1
    [TNode.target 0 [], TNode.target 1 ["b".toList], TNode.target 2 [],
      TNode.target 3 ["a".toList]] (TNode.other 9) [] (by decide) (by decide)

/-- The split worker on whitespace-free input returns the accumulated word. -/
theorem pySplitGo_nospace : ∀ (l cur : Str), (∀ x ∈ l, x ∉ spaceChars) →
    pySplitGo cur l = if cur = [] ∧ l = [] then [] else [cur.reverse ++ l] := by
  intro l
  induction l with
  | nil =>
    intro cur _
    rw [pySplitGo]
    by_cases hc : cur = []
    · rw [if_pos hc, if_pos ⟨hc, rfl⟩]
    · rw [if_neg hc, if_neg (by simp [hc])]
      simp
  | cons c rest ih =>
    intro cur h
    rw [pySplitGo, if_neg (h c (List.mem_cons_self _ _))]
    rw [ih (c :: cur) (fun x hx => h x (List.mem_cons_of_mem _ hx))]
    rw [if_neg (by simp), if_neg (by simp)]
    simp

/-- A non-empty whitespace-free string is a single word. -/
theorem pySplit_nospace (s : Str) (hne : s ≠ []) (h : ∀ x ∈ s, x ∉ spaceChars) :
    pySplit s = [s] := by
  unfold pySplit
  rw [pySplitGo_nospace s [] h, if_neg (by simp [hne])]
  simp

/-- The default-value last element of a non-empty list is its last element. -/
theorem getLastD_cons_eq_getLast (c : Char) (rest : Str) :
    (c :: rest).getLastD ' ' = (c :: rest).getLast (by simp) := by
  rw [List.getLastD_eq_getLast?, List.getLast?_eq_getLast _ (by simp)]
  rfl

/-- The words produced for a whitespace-free markup item. -/
theorem itemWords_markup_nospace (s : Str) (hne : s ≠ []) (h : ∀ x ∈ s, x ∉ spaceChars) :
    itemWords (.markup s) = [⟨s, true, false, false, false, false⟩] := by
  simp [itemWords, pySplit_nospace s hne h]

/-- The single word produced for a whitespace-free plain item: no boundary
spaces, and the punctuation flags determined by the first and last
characters. -/
theorem itemWords_str_nospace (c : Char) (rest : Str)
    (h : ∀ x ∈ c :: rest, x ∉ spaceChars) :
    itemWords (.str (c :: rest)) =
      [⟨c :: rest, false, false, false,
        decide (c ∈ postMarkupBreakChars),
        decide ((c :: rest).getLastD ' ' ∈ preMarkupBreakChars)⟩] := by
  have hsplit := pySplit_nospace (c :: rest) (by simp) h
  have hlastmem : (c :: rest).getLastD ' ' ∈ c :: rest := by
    rw [getLastD_cons_eq_getLast]
    exact List.getLast_mem _
  have hc1 : c ∉ spaceChars := h c (List.mem_cons_self _ _)
  have hc2 : (c :: rest).getLastD ' ' ∉ spaceChars := h _ hlastmem
  by_cases hcp : c ∈ postMarkupBreakChars <;>
    by_cases hlp : (c :: rest).getLastD ' ' ∈ preMarkupBreakChars <;>
    (simp only [List.getLastD_eq_getLast?] at hc2 hlp ⊢;
     simp [itemWords, hsplit, updateFirst, updateLast, hc1, hc2, hcp, hlp])

/-- C6. In the inline merge, a plain word directly followed by a markup word
with no intervening whitespace is joined into one word: concatenated directly
when the plain word ends in a break-eligible punctuation character, otherwise
joined with the literal escape `\ `; symmetrically for a markup word directly
followed by a plain word, keyed on the plain word's first character. -/
theorem inline_markup_escape_join :
    (∀ (a b : Str), a ≠ [] → b ≠ [] →
      (∀ x ∈ a, x ∉ spaceChars) → (∀ x ∈ b, x ∉ spaceChars) →
      mergedWordTexts [.str a, .markup b] =
        [a ++ (if a.getLastD ' ' ∈ preMarkupBreakChars then [] else escSpace) ++ b]) ∧
    (∀ (a b : Str), a ≠ [] → b ≠ [] →
      (∀ x ∈ a, x ∉ spaceChars) → (∀ x ∈ b, x ∉ spaceChars) →
      mergedWordTexts [.markup a, .str b] =
        [a ++ (if b.headD ' ' ∈ postMarkupBreakChars then [] else escSpace) ++ b]) := by
  constructor
  · intro a b ha hb hsa hsb
    obtain ⟨c, rest, rfl⟩ : ∃ c rest, a = c :: rest := by
      cases a with
      | nil => exact absurd rfl ha
      | cons c rest => exact ⟨c, rest, rfl⟩
    unfold mergedWordTexts
    rw [List.map_cons, List.map_cons, List.map_nil]
    rw [itemWords_str_nospace c rest hsa, itemWords_markup_nospace b hb hsb]
    simp only [List.flatten, List.append_nil, List.singleton_append, List.nil_append]
    unfold mergeWords
    simp only [List.foldl]
    rw [show mergeStep [sentinelWord]
        ⟨c :: rest, false, false, false, decide (c ∈ postMarkupBreakChars),
          decide ((c :: rest).getLastD ' ' ∈ preMarkupBreakChars)⟩ =
      [sentinelWord, ⟨c :: rest, false, false, false, decide (c ∈ postMarkupBreakChars),
          decide ((c :: rest).getLastD ' ' ∈ preMarkupBreakChars)⟩] from by
        simp [mergeStep, sentinelWord]]
    by_cases hp : (c :: rest).getLastD ' ' ∈ preMarkupBreakChars
    · simp [mergeStep, sentinelWord, hp, List.getLast?]
    · simp [mergeStep, sentinelWord, hp, List.getLast?]
  · intro a b ha hb hsa hsb
    obtain ⟨c, rest, rfl⟩ : ∃ c rest, b = c :: rest := by
      cases b with
      | nil => exact absurd rfl hb
      | cons c rest => exact ⟨c, rest, rfl⟩
    unfold mergedWordTexts
    rw [List.map_cons, List.map_cons, List.map_nil]
    rw [itemWords_markup_nospace a ha hsa, itemWords_str_nospace c rest hsb]
    simp only [List.flatten, List.append_nil, List.singleton_append, List.nil_append]
    unfold mergeWords
    simp only [List.foldl]
    rw [show mergeStep [sentinelWord] ⟨a, true, false, false, false, false⟩ =
      [sentinelWord, ⟨a, true, false, false, false, false⟩] from by
        simp [mergeStep, sentinelWord]]
    by_cases hp : c ∈ postMarkupBreakChars
    · simp [mergeStep, sentinelWord, hp, List.getLast?, ha]
    · simp [mergeStep, sentinelWord, hp, List.getLast?, ha]

/-- C6, witness. Both adjacency rules at concrete words: `see:` ends in a
break character and concatenates, while `and` follows markup with an escape. -/
theorem inline_markup_escape_join_witness :
    (mergedWordTexts [.str "see:".toList, .markup "*x*".toList] =
      ["see:".toList ++ (if "see:".toList.getLastD ' ' ∈ preMarkupBreakChars then []
        else escSpace) ++ "*x*".toList]) ∧
    (mergedWordTexts [.markup "*x*".toList, .str "and".toList] =
      ["*x*".toList ++ (if "and".toList.headD ' ' ∈ postMarkupBreakChars then []
        else escSpace) ++ "and".toList]) :=
  ⟨inline_markup_escape_join.1 "see:".toList "*x*".toList (by decide) (by decide)
      (by decide) (by decide),
    inline_markup_escape_join.2 "*x*".toList "and".toList (by decide) (by decide)
      (by decide) (by decide)⟩

/-- Space-joining after appending one word adds a separator and the word. -/
theorem joinWithSpace_append_singleton (cur : List Str) (w : Str) (h : cur ≠ []) :
    joinWithSpace (cur ++ [w]) = joinWithSpace cur ++ ' ' :: w := by
  induction cur with
  | nil => exact absurd rfl h
  | cons x xs ih =>
    cases xs with
    | nil => rfl
    | cons y ys =>
      rw [List.cons_append, joinWithSpace_cons_ne x _ (by simp),
        joinWithSpace_cons_ne x (y :: ys) (by simp), ih (by simp)]
      simp

/-- The length of a space-joined non-empty list: the word lengths plus one
separator per gap. -/
theorem joinWithSpace_length (cur : List Str) (h : cur ≠ []) :
    (joinWithSpace cur).length = (cur.map List.length).sum + (cur.length - 1) := by
  induction cur with
  | nil => exact absurd rfl h
  | cons x xs ih =>
    cases xs with
    | nil => simp [joinWithSpace]
    | cons y ys =>
      rw [joinWithSpace_cons_ne x (y :: ys) (by simp)]
      have := ih (by simp)
      simp only [List.map_cons, List.sum_cons, List.length_cons] at this ⊢
      simp only [List.length_append, List.length_cons, this]
      omega

/-- In a list of non-empty words, the total length dominates the count. -/
theorem sum_lengths_ge (l : List Str) (hne : ∀ u ∈ l, u ≠ []) :
    l.length ≤ (l.map List.length).sum := by
  induction l with
  | nil => simp
  | cons x xs ih =>
    have hx : 1 ≤ x.length :=
      List.length_pos.2 (hne x (List.mem_cons_self _ _))
    have := ih (fun u hu => hne u (List.mem_cons_of_mem _ hu))
    simp only [List.length_cons, List.map_cons, List.sum_cons]
    omega

/-- A member of a list of non-empty words is bounded by the total length
minus one per other word. -/
theorem sum_lengths_ge_mem (l : List Str) (w : Str) (hw : w ∈ l)
    (hne : ∀ u ∈ l, u ≠ []) :
    w.length + (l.length - 1) ≤ (l.map List.length).sum := by
  induction l with
  | nil => simp at hw
  | cons x xs ih =>
    rcases List.mem_cons.1 hw with hwx | hwxs
    · subst hwx
      have := sum_lengths_ge xs (fun u hu => hne u (List.mem_cons_of_mem _ hu))
      simp only [List.length_cons, List.map_cons, List.sum_cons]
      omega
    · have hx : 1 ≤ x.length :=
        List.length_pos.2 (hne x (List.mem_cons_self _ _))
      have hxs : 1 ≤ xs.length := by
        cases xs with
        | nil => simp at hwxs
        | cons _ _ => simp
      have := ih hwxs (fun u hu => hne u (List.mem_cons_of_mem _ hu))
      simp only [List.length_cons, List.map_cons, List.sum_cons]
      omega

/-- A word in a multi-word line is strictly shorter than the joined line by
at least the separator and one other word. -/
theorem mem_le_joinLen (cur : List Str) (w : Str) (hw : w ∈ cur)
    (h2 : 2 ≤ cur.length) (hne : ∀ u ∈ cur, u ≠ []) :
    w.length + 2 ≤ (joinWithSpace cur).length := by
  rw [joinWithSpace_length cur (by intro he; rw [he] at h2; simp at h2)]
  have := sum_lengths_ge_mem cur w hw hne
  omega

/-- Invariant bound for the greedy fill loop with `subsequent_indent = 0`
(the formatter's invariant): every emitted line fits in `max W (W - fll0)`,
except a line that is exactly one word longer than `W`. The loop state is
constrained to the shapes the loop actually produces. -/
theorem wrapLoop_line_bound (W : Nat) (fll0 : Int) :
    ∀ (rest : List Str) (width fllc : Int) (cur : List Str) (curLen : Nat),
    width + fllc = (W : Int) →
    (fllc = fll0 ∨ fllc = 0) →
    (cur = [] ∧ curLen = 0 ∨
      (∃ u, cur = [u] ∧ curLen = u.length) ∨
      (2 ≤ cur.length ∧ curLen = (joinWithSpace cur).length ∧ (curLen : Int) ≤ width)) →
    ∀ line ∈ wrapLoop 0 width fllc cur curLen rest,
      (line.length : Int) ≤ max (W : Int) ((W : Int) - fll0) ∨
        ∃ w, (w ∈ cur ∨ w ∈ rest) ∧ line = w ∧ (W : Int) < (w.length : Int) := by
  intro rest
  induction rest with
  | nil =>
    intro width fllc cur curLen hwf hfl hinv line hline
    rw [wrapLoop] at hline
    by_cases hc : cur = []
    · rw [if_pos hc] at hline
      simp at hline
    · rw [if_neg hc] at hline
      simp only [List.mem_singleton] at hline
      subst hline
      have hmaxl : (W : Int) ≤ max (W : Int) ((W : Int) - fll0) := le_max_left _ _
      have hmaxr : (W : Int) - fll0 ≤ max (W : Int) ((W : Int) - fll0) := le_max_right _ _
      rcases hinv with ⟨hce, _⟩ | ⟨u, hcu, hlen⟩ | ⟨_, hlen, hbound⟩
      · exact absurd hce hc
      · subst hcu
        by_cases hub : (W : Int) < (u.length : Int)
        · exact Or.inr ⟨u, Or.inl (List.mem_singleton.2 rfl), rfl, hub⟩
        · left
          show (((joinWithSpace [u]).length : Nat) : Int) ≤ _
          rw [show joinWithSpace [u] = u from rfl]
          omega
      · left
        rw [← hlen]
        rcases hfl with h | h <;> (subst h; omega)
  | cons v rest ih =>
    intro width fllc cur curLen hwf hfl hinv line hline
    simp only [wrapLoop] at hline
    by_cases hc : cur = []
    · subst hc
      obtain hce : curLen = 0 := by
        rcases hinv with ⟨_, h⟩ | ⟨u, h, _⟩ | ⟨h, _, _⟩
        · exact h
        · simp at h
        · simp at h
      subst hce
      simp only [ne_eq, not_true_eq_false, false_and, if_false, List.nil_append,
        not_false_eq_true, if_neg, ite_self] at hline
      have hline2 : line ∈ wrapLoop 0 width fllc [v] v.length rest := by
        convert hline using 2
        simp
      rcases ih width fllc [v] v.length hwf hfl
          (Or.inr (Or.inl ⟨v, rfl, rfl⟩)) line hline2 with hb | ⟨w, hw, hlw, hgt⟩
      · exact Or.inl hb
      · refine Or.inr ⟨w, ?_, hlw, hgt⟩
        rcases hw with hw | hw
        · exact Or.inr (List.mem_cons.2 (Or.inl (List.mem_singleton.1 hw)))
        · exact Or.inr (List.mem_cons_of_mem _ hw)
    · rw [if_pos hc, if_pos hc] at hline
      by_cases hflush : ((curLen + 0 + 1 + v.length : Nat) : Int) > width
      · rw [if_pos ⟨hc, hflush⟩] at hline
        have hwf2 : (if fllc ≠ 0 then width + fllc else width) +
            (if fllc ≠ 0 then (0 : Int) else fllc) = (W : Int) := by
          by_cases h0 : fllc ≠ 0 <;> simp [h0] <;> omega
        have hfl2 : (if fllc ≠ 0 then (0 : Int) else fllc) = fll0 ∨
            (if fllc ≠ 0 then (0 : Int) else fllc) = 0 := by
          by_cases h0 : fllc ≠ 0
          · simp [h0]
          · simp [h0]
            right
            simpa using h0
        rcases List.mem_cons.1 hline with hl1 | hl2
        · subst hl1
          have hmaxl : (W : Int) ≤ max (W : Int) ((W : Int) - fll0) := le_max_left _ _
          have hmaxr : (W : Int) - fll0 ≤ max (W : Int) ((W : Int) - fll0) :=
            le_max_right _ _
          rcases hinv with ⟨hce, _⟩ | ⟨u, hcu, hlen⟩ | ⟨_, hlen, hbound⟩
          · exact absurd hce hc
          · subst hcu
            by_cases hub : (W : Int) < (u.length : Int)
            · refine Or.inr ⟨u, Or.inl (List.mem_singleton.2 rfl), ?_, hub⟩
              show spacesStr 0 ++ joinWithSpace [u] = u
              rfl
            · left
              show (((spacesStr 0 ++ joinWithSpace [u]).length : Nat) : Int) ≤ _
              rw [show spacesStr 0 ++ joinWithSpace [u] = u from rfl]
              omega
          · left
            show (((spacesStr 0 ++ joinWithSpace cur).length : Nat) : Int) ≤ _
            rw [show spacesStr 0 ++ joinWithSpace cur = joinWithSpace cur from
              by simp [spacesStr]]
            rw [← hlen]
            rcases hfl with h | h <;> (subst h; omega)
        · rcases ih _ _ [v] v.length hwf2 hfl2
            (Or.inr (Or.inl ⟨v, rfl, rfl⟩)) line hl2 with hb | ⟨w, hw, hlw, hgt⟩
          · exact Or.inl hb
          · refine Or.inr ⟨w, ?_, hlw, hgt⟩
            rcases hw with hw | hw
            · exact Or.inr (List.mem_cons.2 (Or.inl (List.mem_singleton.1 hw)))
            · exact Or.inr (List.mem_cons_of_mem _ hw)
      · rw [if_neg (fun hco => hflush hco.2)] at hline
        have hinv2 : (cur ++ [v] = [] ∧ curLen + 0 + 1 + v.length = 0 ∨
            (∃ u, cur ++ [v] = [u] ∧ curLen + 0 + 1 + v.length = u.length) ∨
            (2 ≤ (cur ++ [v]).length ∧
              curLen + 0 + 1 + v.length = (joinWithSpace (cur ++ [v])).length ∧
              ((curLen + 0 + 1 + v.length : Nat) : Int) ≤ width)) := by
          refine Or.inr (Or.inr ⟨?_, ?_, by omega⟩)
          · rcases List.exists_cons_of_ne_nil hc with ⟨x, xs, hx⟩
            subst hx
            simp
          · have hcl : curLen = (joinWithSpace cur).length := by
              rcases hinv with ⟨hce, _⟩ | ⟨u, hcu, hlen⟩ | ⟨_, hlen, _⟩
              · exact absurd hce hc
              · subst hcu; exact hlen
              · exact hlen
            rw [joinWithSpace_append_singleton cur v hc]
            simp [hcl]
            omega
        rcases ih width fllc (cur ++ [v]) (curLen + 0 + 1 + v.length) hwf hfl hinv2
            line hline with hb | ⟨w, hw, hlw, hgt⟩
        · exact Or.inl hb
        · refine Or.inr ⟨w, ?_, hlw, hgt⟩
          rcases hw with hw | hw
          · rcases List.mem_append.1 hw with hw2 | hw2
            · exact Or.inl hw2
            · exact Or.inr (List.mem_cons.2 (Or.inl (List.mem_singleton.1 hw2)))
          · exact Or.inr (List.mem_cons_of_mem _ hw)

/-- Completeness for the greedy fill loop with `subsequent_indent = 0`: a word
longer than the original width `W` always appears verbatim as an element of the
output line list (it is flushed on a line of its own). -/
theorem wrapLoop_long_word_complete (W : Nat) (fll0 : Int) (hfll0 : -2 ≤ fll0) :
    ∀ (rest : List Str) (width fllc : Int) (cur : List Str) (curLen : Nat),
    width + fllc = (W : Int) →
    (fllc = fll0 ∨ fllc = 0) →
    (∀ u ∈ cur, u ≠ []) →
    (∀ u ∈ rest, u ≠ []) →
    (cur = [] ∧ curLen = 0 ∨
      (∃ u, cur = [u] ∧ curLen = u.length) ∨
      (2 ≤ cur.length ∧ curLen = (joinWithSpace cur).length ∧ (curLen : Int) ≤ width)) →
    ∀ w, (w ∈ cur ∨ w ∈ rest) → (W : Int) < (w.length : Int) →
      w ∈ wrapLoop 0 width fllc cur curLen rest := by
  intro rest
  induction rest with
  | nil =>
    intro width fllc cur curLen hwf hfl hnec _ hinv w hwmem hgt
    have hwc : w ∈ cur := by
      rcases hwmem with h | h
      · exact h
      · simp at h
    have hc : cur ≠ [] := fun he => by rw [he] at hwc; simp at hwc
    rw [wrapLoop, if_neg hc]
    rcases hinv with ⟨hce, _⟩ | ⟨u, hcu, _⟩ | ⟨h2, hlen, hbound⟩
    · exact absurd hce hc
    · subst hcu
      have : w = u := List.mem_singleton.1 hwc
      subst this
      exact List.mem_singleton.2 rfl
    · exfalso
      have hwle : width ≤ (W : Int) + 2 := by rcases hfl with h | h <;> omega
      have := mem_le_joinLen cur w hwc h2 hnec
      omega
  | cons v rest ih =>
    intro width fllc cur curLen hwf hfl hnec hner hinv w hwmem hgt
    simp only [wrapLoop]
    by_cases hc : cur = []
    · subst hc
      obtain hce : curLen = 0 := by
        rcases hinv with ⟨_, h⟩ | ⟨u, h, _⟩ | ⟨h, _, _⟩
        · exact h
        · simp at h
        · simp at h
      subst hce
      simp only [ne_eq, not_true_eq_false, false_and, if_false, List.nil_append,
        not_false_eq_true, if_neg, ite_self]
      have hgoal : w ∈ wrapLoop 0 width fllc [v] v.length rest := by
        refine ih width fllc [v] v.length hwf hfl ?_ (fun u hu => hner u (List.mem_cons_of_mem _ hu))
          (Or.inr (Or.inl ⟨v, rfl, rfl⟩)) w ?_ hgt
        · intro u hu
          rw [List.mem_singleton.1 hu]
          exact hner v (List.mem_cons_self _ _)
        · rcases hwmem with h | h
          · simp at h
          · rcases List.mem_cons.1 h with h | h
            · exact Or.inl (by rw [h]; exact List.mem_singleton.2 rfl)
            · exact Or.inr h
      convert hgoal using 2
      simp
    · rw [if_pos hc, if_pos hc]
      by_cases hflush : ((curLen + 0 + 1 + v.length : Nat) : Int) > width
      · rw [if_pos ⟨hc, hflush⟩]
        have hwf2 : (if fllc ≠ 0 then width + fllc else width) +
            (if fllc ≠ 0 then (0 : Int) else fllc) = (W : Int) := by
          by_cases h0 : fllc ≠ 0 <;> simp [h0] <;> omega
        have hfl2 : (if fllc ≠ 0 then (0 : Int) else fllc) = fll0 ∨
            (if fllc ≠ 0 then (0 : Int) else fllc) = 0 := by
          by_cases h0 : fllc ≠ 0
          · simp [h0]
          · simp [h0]
            right
            simpa using h0
        rcases hwmem with hwc | hwr
        · rcases hinv with ⟨hce, _⟩ | ⟨u, hcu, _⟩ | ⟨h2, hlen, hbound⟩
          · exact absurd hce hc
          · subst hcu
            refine List.mem_cons.2 (Or.inl ?_)
            rw [List.mem_singleton.1 hwc]
            rfl
          · exfalso
            have hwle : width ≤ (W : Int) + 2 := by rcases hfl with h | h <;> omega
            have := mem_le_joinLen cur w hwc h2 hnec
            omega
        · refine List.mem_cons.2 (Or.inr ?_)
          refine ih _ _ [v] v.length hwf2 hfl2 ?_
            (fun u hu => hner u (List.mem_cons_of_mem _ hu)) (Or.inr (Or.inl ⟨v, rfl, rfl⟩))
            w ?_ hgt
          · intro u hu
            rw [List.mem_singleton.1 hu]
            exact hner v (List.mem_cons_self _ _)
          · rcases List.mem_cons.1 hwr with h | h
            · exact Or.inl (by rw [h]; exact List.mem_singleton.2 rfl)
            · exact Or.inr h
      · rw [if_neg (fun hco => hflush hco.2)]
        have hinv2 : (cur ++ [v] = [] ∧ curLen + 0 + 1 + v.length = 0 ∨
            (∃ u, cur ++ [v] = [u] ∧ curLen + 0 + 1 + v.length = u.length) ∨
            (2 ≤ (cur ++ [v]).length ∧
              curLen + 0 + 1 + v.length = (joinWithSpace (cur ++ [v])).length ∧
              ((curLen + 0 + 1 + v.length : Nat) : Int) ≤ width)) := by
          refine Or.inr (Or.inr ⟨?_, ?_, by omega⟩)
          · rcases List.exists_cons_of_ne_nil hc with ⟨x, xs, hx⟩
            subst hx
            simp
          · have hcl : curLen = (joinWithSpace cur).length := by
              rcases hinv with ⟨hce, _⟩ | ⟨u, hcu, hlen⟩ | ⟨_, hlen, _⟩
              · exact absurd hce hc
              · subst hcu; exact hlen
              · exact hlen
            rw [joinWithSpace_append_singleton cur v hc]
            simp [hcl]
            omega
        refine ih width fllc (cur ++ [v]) (curLen + 0 + 1 + v.length) hwf hfl ?_
          (fun u hu => hner u (List.mem_cons_of_mem _ hu)) hinv2 w ?_ hgt
        · intro u hu
          rcases List.mem_append.1 hu with h | h
          · exact hnec u h
          · rw [List.mem_singleton.1 h]
            exact hner v (List.mem_cons_self _ _)
        · rcases hwmem with h | h
          · exact Or.inl (List.mem_append.2 (Or.inl h))
          · rcases List.mem_cons.1 h with h | h
            · exact Or.inl (List.mem_append.2 (Or.inr (by rw [h]; exact List.mem_singleton.2 rfl)))
            · exact Or.inr h

/-- C7 counterexample: with `first_line_len = -2` (the value the footnote
formatter installs via `wrap_first_at(len("..") - 4)`), the greedy wrap at
width 10 of the words "aaaaa" and "bbbbbb" — each individually within the
width — produces the single line "aaaaa bbbbbb" of length 12 > 10, so a line
holding no overlong word can still exceed the width. -/
theorem wrap_width_bound_counterexample :
    greedyWrap 10 0 (-2) ["aaaaa".toList, "bbbbbb".toList] = ["aaaaa bbbbbb".toList] ∧
    ("aaaaa bbbbbb".toList).length = 12 ∧
    ∀ w ∈ ["aaaaa".toList, "bbbbbb".toList], w.length ≤ 10 :=
  ⟨rfl, rfl, by decide⟩

/-- C7 (amended): for the greedy wrapper as the program runs it
(`subsequent_indent` is always 0, and the reachable `first_line_len` values
satisfy `-2 ≤ fll`), a word longer than the width `W` is never split: it
appears verbatim as a line of its own in the output, and every emitted line
either has length at most `max W (W - fll)` — hence at most `W` whenever
`fll ≥ 0` — or is exactly such an overlong word. -/
theorem wrap_long_word_alone_width_bound (W : Nat) (fll : Int) (words : List Str)
    (hfll : -2 ≤ fll) (hwords : ∀ u ∈ words, u ≠ []) :
    (∀ line ∈ greedyWrap (W : Int) 0 fll words,
      (line.length : Int) ≤ max (W : Int) ((W : Int) - fll) ∨
        ∃ w ∈ words, line = w ∧ (W : Int) < (w.length : Int)) ∧
    (∀ w ∈ words, (W : Int) < (w.length : Int) →
      w ∈ greedyWrap (W : Int) 0 fll words) := by
  have hwf : (if fll ≠ 0 then (W : Int) - fll else (W : Int)) + fll = (W : Int) := by
    by_cases h0 : fll = 0 <;> simp [h0]
  constructor
  · intro line hline
    rw [greedyWrap] at hline
    rcases wrapLoop_line_bound W fll words _ fll [] 0 hwf (Or.inl rfl)
        (Or.inl ⟨rfl, rfl⟩) line hline with hb | ⟨w, hw, hlw, hgt⟩
    · exact Or.inl hb
    · refine Or.inr ⟨w, ?_, hlw, hgt⟩
      rcases hw with h | h
      · simp at h
      · exact h
  · intro w hw hgt
    rw [greedyWrap]
    exact wrapLoop_long_word_complete W fll hfll words _ fll [] 0 hwf (Or.inl rfl)
      (by simp) hwords (Or.inl ⟨rfl, rfl⟩) w (Or.inr hw) hgt

/-- Witness for C7: at width 10 with `first_line_len = -2`, the 13-character
word is emitted verbatim as its own output line. -/
theorem wrap_long_word_alone_width_bound_witness :
    (-2 : Int) ≤ -2 ∧
    "bbbbbbbbbbbbb".toList ∈
      greedyWrap ((10 : Nat) : Int) 0 (-2) ["aaa".toList, "bbbbbbbbbbbbb".toList] :=
  ⟨by decide,
    (wrap_long_word_alone_width_bound 10 (-2) ["aaa".toList, "bbbbbbbbbbbbb".toList]
        (by decide) (by decide)).2 "bbbbbbbbbbbbb".toList (by decide) (by decide)⟩
